import Mathlib

/-!
# A shallow embedding of the stropt layout resolver and optimizer

This file embeds, in Lean, the core of the `stropt` program:

* the primitive-type catalog and its setters/presets (`types.go`),
* the field/aggregate data model (`parse.go`),
* the layout resolver `ResolveMeta` with its helpers `firstPass`,
  `handleValueType`, `resolveAggregate`, `resolveUnion` and the struct
  second pass (`extract.go`),
* the optimizer `Optimize` (`extract.go`), including a faithful model of
  Go's `slices.SortFunc` (the pattern-defeating quicksort of the Go
  standard library, which is *not* a stable sort),
* the CLI size/alignment option handler `handleSizeAlignOptions`
  (`stropt.go`).

Go `int` values are modelled as unbounded `Int` (no claim below concerns
64-bit overflow); Go's `%` operator is truncated remainder, i.e.
`Int.tmod`, and a zero divisor is a runtime panic.  Go runtime panics
(integer divide by zero, index out of range, nil-map/nil-pointer
dereference) and stack exhaustion are modelled by the dedicated result
`Fault.crash`; Go `error` values built with `fmt.Errorf`/`errors.New`
are modelled by the structured type `SymErr` that records exactly the
wrapping structure of the produced error strings.  The mutable globals
(`TypeMap`, `pointerSize`, ..) are threaded as an explicit `Cat` value,
and the `Context` map of shared `*Aggregate` pointers is modelled as an
alias table into a store, so that mutation through one alias is visible
through every alias.  Unbounded recursion in the resolver is modelled
with an explicit fuel parameter (fuel exhaustion is a crash, as the Go
original would exhaust the stack).
-/

namespace Stropt

/-- `TypeMeta` from `types.go`: alignment and size of a primitive type. -/
structure TypeMeta where
  Alignment : Int
  Size : Int
deriving DecidableEq, Repr, Inhabited

/-- Association-list model of a Go `map[string]TypeMeta`. -/
abbrev TypeMapT := List (String × TypeMeta)

/-- First-match lookup in an association list (Go map read). -/
def lookupStr (l : List (String × α)) (k : String) : Option α :=
  (l.find? (fun p => p.1 == k)).map (fun p => p.2)

/-- Go map write: replace the binding of `k` if present, else add it. -/
def tmInsert (tm : TypeMapT) (k : String) (v : TypeMeta) : TypeMapT :=
  if (tm.find? (fun p => p.1 == k)).isSome then
    tm.map (fun p => if p.1 == k then (k, v) else p)
  else
    tm ++ [(k, v)]

/-- Go map read of `TypeMap`. -/
def tmLookup (tm : TypeMapT) (k : String) : Option TypeMeta :=
  lookupStr tm k

/-- The catalog: the `TypeMap` global plus the pointer/enum globals of
`types.go`, threaded explicitly. -/
structure Cat where
  tm : TypeMapT
  pointerAlign : Int
  pointerSize : Int
  enumAlign : Int
  enumSize : Int
deriving DecidableEq, Repr, Inhabited

/-- `charTypes` from `types.go`. -/
def charTypes : List String := ["char", "unsigned char"]

/-- `shortTypes` from `types.go`. -/
def shortTypes : List String :=
  ["short", "short int", "signed short", "signed short int",
   "unsigned short", "unsigned short int"]

/-- `intTypes` from `types.go` (note the stray trailing space of
`"unsigned "`, present in the source). -/
def intTypes : List String :=
  ["int", "signed", "signed int", "unsigned ", "unsigned int"]

/-- `longTypes` from `types.go`. -/
def longTypes : List String :=
  ["long", "long int", "signed long", "signed long int",
   "unsigned long", "unsigned long int"]

/-- `longlongTypes` from `types.go`. -/
def longlongTypes : List String :=
  ["long long", "long long int", "signed long long", "signed long long int",
   "unsigned long long", "unsigned long long int"]

/-- The initial value of the `TypeMap` global from `types.go`
(64-bit defaults).  Entries are `{Alignment, Size}`. -/
def defaultTypeMap : TypeMapT :=
  [("char", ⟨1, 1⟩), ("signed char", ⟨1, 1⟩), ("unsigned char", ⟨1, 1⟩),
   ("short", ⟨2, 2⟩), ("short int", ⟨2, 2⟩), ("signed short", ⟨2, 2⟩),
   ("signed short int", ⟨2, 2⟩), ("unsigned short", ⟨2, 2⟩),
   ("unsigned short int", ⟨2, 2⟩),
   ("int", ⟨4, 4⟩), ("signed", ⟨4, 4⟩), ("signed int", ⟨4, 4⟩),
   ("unsigned", ⟨4, 4⟩), ("unsigned int", ⟨4, 4⟩),
   ("long", ⟨8, 8⟩), ("long int", ⟨8, 8⟩), ("signed long", ⟨8, 8⟩),
   ("signed long int", ⟨8, 8⟩), ("unsigned long", ⟨8, 8⟩),
   ("unsigned long int", ⟨8, 8⟩),
   ("long long", ⟨8, 8⟩), ("long long int", ⟨8, 8⟩),
   ("signed long long", ⟨8, 8⟩), ("signed long long int", ⟨8, 8⟩),
   ("unsigned long long", ⟨8, 8⟩), ("unsigned long long int", ⟨8, 8⟩),
   ("float", ⟨4, 4⟩), ("double", ⟨8, 8⟩), ("long double", ⟨16, 16⟩),
   ("int8_t", ⟨1, 1⟩), ("uint8_t", ⟨1, 1⟩), ("int16_t", ⟨2, 2⟩),
   ("uint16_t", ⟨2, 2⟩), ("int32_t", ⟨4, 4⟩), ("uint32_t", ⟨4, 4⟩),
   ("int64_t", ⟨8, 8⟩), ("uint64_t", ⟨8, 8⟩),
   ("intptr_t", ⟨8, 8⟩), ("uintptr_t", ⟨8, 8⟩),
   ("int_least8_t", ⟨1, 1⟩), ("uint_least8_t", ⟨1, 1⟩),
   ("int_least16_t", ⟨2, 2⟩), ("uint_least16_t", ⟨2, 2⟩),
   ("int_least32_t", ⟨4, 4⟩), ("uint_least32_t", ⟨4, 4⟩),
   ("int_least64_t", ⟨8, 8⟩), ("uint_least64_t", ⟨8, 8⟩),
   ("int_fast8_t", ⟨1, 1⟩), ("uint_fast8_t", ⟨1, 1⟩),
   ("int_fast16_t", ⟨8, 8⟩), ("uint_fast16_t", ⟨8, 8⟩),
   ("int_fast32_t", ⟨8, 8⟩), ("uint_fast32_t", ⟨8, 8⟩),
   ("int_fast64_t", ⟨8, 8⟩), ("uint_fast64_t", ⟨8, 8⟩),
   ("intmax_t", ⟨8, 8⟩), ("uintmax_t", ⟨8, 8⟩)]

/-- The initial catalog state: `TypeMap` defaults plus
`pointerSize = pointerAlign = 8`, `enumSize = enumAlign = 4`. -/
def defaultCat : Cat :=
  { tm := defaultTypeMap, pointerAlign := 8, pointerSize := 8,
    enumAlign := 4, enumSize := 4 }

/-- `for idx := range charTypes { TypeMap[keys[idx]] = TypeMeta{alignment, size} }`:
the setters of `types.go` all iterate over the *index range of `charTypes`*
(length 2), whatever key list they then index into. -/
def setTypes (tm : TypeMapT) (keys : List String) (count : Nat) (v : TypeMeta) :
    TypeMapT :=
  (List.range count).foldl (fun tm idx => tmInsert tm (keys.getD idx "") v) tm

/-- `SetPointerAlignSize` from `types.go`. -/
def SetPointerAlignSize (cat : Cat) (alignment size : Int) : Cat :=
  { cat with pointerAlign := alignment, pointerSize := size }

/-- `SetEnumAlignSize` from `types.go`. -/
def SetEnumAlignSize (cat : Cat) (alignment size : Int) : Cat :=
  { cat with enumAlign := alignment, enumSize := size }

/-- `SetCharAlignSize` from `types.go`: ranges over `charTypes`. -/
def SetCharAlignSize (cat : Cat) (alignment size : Int) : Cat :=
  { cat with tm := setTypes cat.tm charTypes charTypes.length ⟨alignment, size⟩ }

/-- `SetShortAlignSize` from `types.go`: its loop is `for idx := range
charTypes`, so only `shortTypes[0]` and `shortTypes[1]` are written. -/
def SetShortAlignSize (cat : Cat) (alignment size : Int) : Cat :=
  { cat with tm := setTypes cat.tm shortTypes charTypes.length ⟨alignment, size⟩ }

/-- `SetIntAlignSize` from `types.go`: same `for idx := range charTypes`
loop over `intTypes`. -/
def SetIntAlignSize (cat : Cat) (alignment size : Int) : Cat :=
  { cat with tm := setTypes cat.tm intTypes charTypes.length ⟨alignment, size⟩ }

/-- `SetLongAlignSize` from `types.go`: same `for idx := range charTypes`
loop over `longTypes`. -/
def SetLongAlignSize (cat : Cat) (alignment size : Int) : Cat :=
  { cat with tm := setTypes cat.tm longTypes charTypes.length ⟨alignment, size⟩ }

/-- `SetLongLongAlignSize` from `types.go`: same `for idx := range
charTypes` loop over `longlongTypes`. -/
def SetLongLongAlignSize (cat : Cat) (alignment size : Int) : Cat :=
  { cat with tm := setTypes cat.tm longlongTypes charTypes.length ⟨alignment, size⟩ }

/-- `SetFloatAlignSize` from `types.go`. -/
def SetFloatAlignSize (cat : Cat) (alignment size : Int) : Cat :=
  { cat with tm := tmInsert cat.tm "float" ⟨alignment, size⟩ }

/-- `SetDoubleAlignSize` from `types.go`. -/
def SetDoubleAlignSize (cat : Cat) (alignment size : Int) : Cat :=
  { cat with tm := tmInsert cat.tm "double" ⟨alignment, size⟩ }

/-- `SetLongDoubleAlignSize` from `types.go`. -/
def SetLongDoubleAlignSize (cat : Cat) (alignment size : Int) : Cat :=
  { cat with tm := tmInsert cat.tm "long double" ⟨alignment, size⟩ }

/-- `SetAvrSys` from `types.go` (the AVR preset). -/
def SetAvrSys (cat : Cat) : Cat :=
  let cat := SetPointerAlignSize cat 1 2
  let cat := SetEnumAlignSize cat 1 2
  let cat := SetCharAlignSize cat 1 1
  let cat := SetShortAlignSize cat 1 2
  let cat := SetIntAlignSize cat 1 2
  let cat := SetLongAlignSize cat 1 4
  let cat := SetLongLongAlignSize cat 1 8
  let cat := SetFloatAlignSize cat 1 4
  let cat := SetDoubleAlignSize cat 1 4
  SetLongDoubleAlignSize cat 1 8

/-- `Set32BitSys` from `types.go` (the 32-bit preset). -/
def Set32BitSys (cat : Cat) : Cat :=
  let cat := SetPointerAlignSize cat 4 4
  let cat := SetEnumAlignSize cat 4 4
  let cat := SetCharAlignSize cat 1 1
  let cat := SetShortAlignSize cat 2 2
  let cat := SetIntAlignSize cat 4 4
  let cat := SetLongAlignSize cat 4 4
  let cat := SetLongLongAlignSize cat 4 8
  let cat := SetFloatAlignSize cat 4 4
  let cat := SetDoubleAlignSize cat 4 8
  SetLongDoubleAlignSize cat 4 12

/-- The `Field` interface of `parse.go` with its five implementations,
as a closed sum. -/
inductive Field
  | basic (qualifiers : List String) (typeName : String) (name : String)
  | pointer (qualifiers : List String) (typeName : String) (name : String)
      (pointerQualifiers : List String)
  | array (qualifiers : List String) (typeName : String) (name : String)
      (elements : Int)
  | funcPointer (returnType : String) (name : String) (args : List String)
  | enumEntry (name : String)
deriving DecidableEq, Repr, Inhabited

/-- `keyQualifiers` from `parse.go`. -/
def keyQualifiers : List String := ["signed", "unsigned", "long"]

/-- `Basic.UnqualifiedType` from `parse.go`: keep a qualifier if it is a
key qualifier or the last qualifier, then append the type name, joined
with single spaces. -/
def unqualBasic (qualifiers : List String) (typeName : String) : String :=
  let kept := (qualifiers.enum.filter
    (fun p => keyQualifiers.contains p.2 || p.1 == qualifiers.length - 1)).map
    (fun p => p.2)
  String.intercalate " " (kept ++ [typeName])

/-- `FuncPointer.Type` from `parse.go` (also its `UnqualifiedType`). -/
def funcPtrType (returnType : String) (args : List String) : String :=
  returnType ++ " (*) " ++ String.intercalate ", " args

/-- `Field.UnqualifiedType`, per variant as in `parse.go` (`Pointer` and
`Array` delegate to the embedded `Basic`). -/
def Field.unqualifiedType : Field → String
  | .basic qs t _ => unqualBasic qs t
  | .pointer qs t _ _ => unqualBasic qs t
  | .array qs t _ _ => unqualBasic qs t
  | .funcPointer r _ args => funcPtrType r args
  | .enumEntry s => s

/-- `AggregateKind` from `parse.go`. -/
inductive AggregateKind
  | structKind
  | unionKind
  | enumKind
deriving DecidableEq, Repr, Inhabited

/-- `Aggregate` from `parse.go`. -/
structure Aggregate where
  Name : String
  Typedef : String
  Kind : AggregateKind
  Fields : List Field
deriving DecidableEq, Repr, Inhabited

/-- The `Context` of `extract.go` is `map[string]*Aggregate`: several
keys may point to the *same* mutable record.  We model the pointers as
indices into a store, so a write through one alias is seen by all. -/
structure Ctx where
  names : List (String × Nat)
  store : List Aggregate
deriving DecidableEq, Repr, Inhabited

/-- Reading `ctx[name]` (a Go map read returning a possibly-absent
pointer, then dereferenced by the callers). -/
def ctxFind (ctx : Ctx) (name : String) : Option Aggregate :=
  (lookupStr ctx.names name).bind (fun i => ctx.store.get? i)

/-- `Layout` from `extract.go`.  `subAggregate = none` models a nil Go
slice (left unset when the resolved sub-meta carried a nil `Layout`). -/
structure Layout where
  field : Field
  size : Int
  alignment : Int
  padding : Int
  subAggregate : Option (List Layout)

instance : Inhabited Layout := ⟨⟨default, 0, 0, 0, none⟩⟩

/-- `AggregateMeta` from `extract.go`.  `Layout = none` models a nil Go
slice (the enum case and the zero value leave it nil). -/
structure AggregateMeta where
  Size : Int
  Alignment : Int
  Layout : Option (List Layout)

instance : Inhabited AggregateMeta := ⟨⟨0, 0, none⟩⟩

/-- The wrapping structure of the `error` values built in `extract.go`:
`symbolTop n` is `fmt.Errorf("%w: %v", ErrSymbol, name)`, `symbolInner t`
is `fmt.Errorf("%w: inner '%s'", ErrSymbol, aggType)`, and `named n e` is
the `fmt.Errorf("name %s: %w", name, err)` wrap of `ResolveMeta`. -/
inductive SymErr
  | symbolTop (name : String)
  | symbolInner (typeName : String)
  | named (outer : String) (e : SymErr)
deriving DecidableEq, Repr, Inhabited

/-- A computation outcome: a Go `error` return (`err`), or a runtime
panic / stack exhaustion (`crash`), which in the program is an abort,
not an error value. -/
inductive Fault
  | err (e : SymErr)
  | crash
deriving DecidableEq, Repr, Inhabited

/-- Result type of the resolver functions. -/
abbrev Res (α : Type) := Except Fault α

/-- `fmt.Errorf("name %s: %w", ...)` wraps error values; a Go panic is
not an error value and propagates unwrapped. -/
def wrapName (name : String) : Fault → Fault
  | .err e => .err (.named name e)
  | .crash => .crash

/-- Go's `%` on `int` (truncated remainder); a zero divisor is a runtime
panic. -/
def goMod (x m : Int) : Res Int :=
  if m = 0 then .error .crash else .ok (x.tmod m)

/-- `resolveAggregate` from `extract.go`, parameterised by the recursive
resolver: look the type up in the context and re-resolve through the
aggregate's recorded `Name`. -/
def resolveAggregate (resolve : String → Res AggregateMeta) (ctx : Ctx)
    (aggType : String) : Res AggregateMeta :=
  match ctxFind ctx aggType with
  | none => .error (.err (.symbolInner aggType))
  | some fAgg => resolve fAgg.Name

/-- `handleValueType` from `extract.go`: catalog lookup on the
unqualified type, multiplying array sizes by the element count;
otherwise resolve as a nested aggregate. -/
def handleValueType (resolve : String → Res AggregateMeta) (cat : Cat)
    (ctx : Ctx) (field : Field) : Res AggregateMeta :=
  let fType := field.unqualifiedType
  match tmLookup cat.tm fType with
  | some fMeta =>
    let size := match field with
      | .array _ _ _ elements => fMeta.Size * elements
      | _ => fMeta.Size
    .ok ⟨size, fMeta.Alignment, none⟩
  | none =>
    match resolveAggregate resolve ctx fType with
    | .error f => .error f
    | .ok subMeta =>
      match field with
      | .array _ _ _ elements => .ok { subMeta with Size := subMeta.Size * elements }
      | _ => .ok subMeta

/-- The single-field step of `firstPass`, by field kind as in the
source's type switch. -/
def fieldStep (resolve : String → Res AggregateMeta) (cat : Cat) (ctx : Ctx) :
    Field → Res AggregateMeta
  | .basic qs t n => handleValueType resolve cat ctx (.basic qs t n)
  | .array qs t n e => handleValueType resolve cat ctx (.array qs t n e)
  | .funcPointer _ _ _ => .ok ⟨cat.pointerSize, cat.pointerAlign, none⟩
  | .pointer _ _ _ _ => .ok ⟨cat.pointerSize, cat.pointerAlign, none⟩
  | .enumEntry _ => .ok ⟨cat.enumSize, cat.enumAlign, none⟩

/-- `firstPass` from `extract.go`: resolve each field in declaration
order and track the maximum alignment (starting from 0). -/
def firstPass (resolve : String → Res AggregateMeta) (cat : Cat) (ctx : Ctx) :
    List Field → Res (List AggregateMeta × Int)
  | [] => .ok ([], 0)
  | field :: rest =>
    match fieldStep resolve cat ctx field with
    | .error f => .error f
    | .ok curr =>
      match firstPass resolve cat ctx rest with
      | .error f => .error f
      | .ok (restMetas, restMax) =>
        .ok (curr :: restMetas, max curr.Alignment restMax)

/-- The layout entry `resolveUnion` builds for one field: its own size
and alignment, padding `0`, and the sub-layout when present. -/
def unionEntry (p : Field × AggregateMeta) : Layout :=
  { field := p.1, size := p.2.Size, alignment := p.2.Alignment,
    padding := 0, subAggregate := p.2.Layout }

/-- The `layouts[len(layouts)-1].padding = padding` write of
`resolveUnion`. -/
def withPadding (L : Layout) (p : Int) : Layout := { L with padding := p }

/-- `resolveUnion` from `extract.go`: every field keeps its own
size/alignment with padding 0; the running maximum size starts at `-1`;
the trailing padding is written into the *last* layout entry (a panic on
an empty union: division by zero, then index `-1`). -/
def resolveUnion (agg : Aggregate) (meta : List AggregateMeta) (mx : Int) :
    Res AggregateMeta :=
  let maxSize := meta.foldl (fun acc m => if m.Size > acc then m.Size else acc) (-1)
  let layouts := (agg.Fields.zip meta).map unionEntry
  match goMod maxSize mx with
  | .error f => .error f
  | .ok r =>
    match goMod (mx - r) mx with
    | .error f => .error f
    | .ok padding =>
      match layouts.length with
      | 0 => .error .crash
      | n + 1 =>
        .ok ⟨maxSize + padding, mx,
          some (layouts.set n (withPadding (layouts.getD n default) padding))⟩

/-- The `padToAlignment` selection of the struct second pass in
`extract.go`: `resMetas[idx+1].Alignment`, or `maxAlign` when `idx` is
the last index. -/
def nextAlign (maxAlign : Int) : List (Field × AggregateMeta) → Int
  | [] => maxAlign
  | (_, next) :: _ => next.Alignment

/-- The struct second pass of `ResolveMeta` in `extract.go`, walking
field/meta pairs in declaration order.  The pair list is
`agg.Fields.zip resMetas` (the two lists always have equal length, see
`firstPass_length`).  Padding is
`(maxAlign - (totSize % maxAlign)) % padTo` where `padTo` is the next
field's alignment, or `maxAlign` for the last field; a zero modulus is a
runtime panic. -/
def secondPass (maxAlign : Int) :
    List (Field × AggregateMeta) → Int → Res (List Layout × Int)
  | [], totSize => .ok ([], totSize)
  | (field, curr) :: rest, totSize =>
    match goMod (totSize + curr.Size) maxAlign with
    | .error f => .error f
    | .ok r =>
      match goMod (maxAlign - r) (nextAlign maxAlign rest) with
      | .error f => .error f
      | .ok padding =>
        match secondPass maxAlign rest (totSize + curr.Size + padding) with
        | .error f => .error f
        | .ok (restLayouts, finalSize) =>
          .ok ({ field := field, size := curr.Size, alignment := curr.Alignment,
                 padding := padding, subAggregate := curr.Layout : Layout}
               :: restLayouts, finalSize)

/-- `ResolveMeta` from `extract.go`, with fuel for the (in Go unbounded)
recursion through nested aggregates; fuel exhaustion models stack
exhaustion as a crash. -/
def ResolveMeta (cat : Cat) (ctx : Ctx) : Nat → String → Res AggregateMeta
  | 0, _ => .error .crash
  | fuel + 1, name =>
    match ctxFind ctx name with
    | none => .error (.err (.symbolTop name))
    | some agg =>
      match firstPass (ResolveMeta cat ctx fuel) cat ctx agg.Fields with
      | .error f => .error (wrapName name f)
      | .ok (resMetas, maxAlign) =>
        if agg.Kind = .enumKind then
          .ok ⟨cat.enumSize, cat.enumAlign, none⟩
        else if agg.Kind = .unionKind then
          resolveUnion agg resMetas maxAlign
        else
          match secondPass maxAlign (agg.Fields.zip resMetas) 0 with
          | .error f => .error f
          | .ok (layouts, totSize) => .ok ⟨totSize, maxAlign, some layouts⟩

/-! ## Go's `slices.SortFunc`

`Optimize` sorts with `slices.SortFunc`, which is Go's pattern-defeating
quicksort (`pdqsortCmpFunc` and its helpers from the standard library's
`slices` package) and is documented as **not** stable.  We embed it
faithfully over lists, with Go slice indexing (`aget`) and element swaps
(`lswap`); all index arithmetic below stays in bounds exactly as in the
Go original.  The top-level driver uses explicit fuel; one unit of fuel
is consumed per loop iteration / recursive call of `pdqsortCmpFunc`,
whose range shrinks strictly each time, so the generous fuel budget of
`goSortFunc` is never exhausted. -/

/-- Go slice read `data[i]`. -/
def aget [Inhabited α] (l : List α) (i : Nat) : α := l.getD i default

/-- Go parallel assignment `data[i], data[j] = data[j], data[i]`. -/
def lswap [Inhabited α] (l : List α) (i j : Nat) : List α :=
  if i < l.length ∧ j < l.length then (l.set i (aget l j)).set j (aget l i)
  else l

/-- `insertionSortCmpFunc`'s inner loop: bubble `data[j]` left while it
compares strictly below its predecessor. -/
def insInner [Inhabited α] (cmp : α → α → Int) (data : List α) (a : Nat) :
    Nat → List α
  | 0 => data
  | j + 1 =>
    if a < j + 1 ∧ cmp (aget data (j + 1)) (aget data j) < 0 then
      insInner cmp (lswap data (j + 1) j) a j
    else data

/-- `insertionSortCmpFunc`'s outer loop over `i = a+1, ..., b-1`; the
loop runs `b - i` times, so the explicit fuel of `b + 1` at the call
site is never exhausted. -/
def insOuter [Inhabited α] (cmp : α → α → Int) :
    Nat → List α → Nat → Nat → Nat → List α
  | 0, data, _, _, _ => data
  | fuel + 1, data, a, b, i =>
    if i < b then insOuter cmp fuel (insInner cmp data a i) a b (i + 1) else data

/-- `insertionSortCmpFunc` from Go's `slices` package. -/
def insertionSortCmpFunc [Inhabited α] (cmp : α → α → Int) (data : List α)
    (a b : Nat) : List α :=
  insOuter cmp (b + 1) data a b (a + 1)

/-- `siftDownCmpFunc` from Go's `slices` package (the bumped child
`2*lo+2` is written out in each branch of the child selection).  `lo`
at least doubles per iteration while staying below `hi`, so the
explicit fuel of `hi + 1` at the call sites is never exhausted. -/
def siftDownCmpFunc [Inhabited α] (cmp : α → α → Int) :
    Nat → List α → Nat → Nat → Nat → List α
  | 0, data, _, _, _ => data
  | fuel + 1, data, lo, hi, first =>
    if 2 * lo + 1 < hi then
      if 2 * lo + 1 + 1 < hi ∧
          cmp (aget data (first + (2 * lo + 1))) (aget data (first + (2 * lo + 1) + 1)) < 0 then
        if cmp (aget data (first + lo)) (aget data (first + (2 * lo + 2))) < 0 then
          siftDownCmpFunc cmp fuel (lswap data (first + lo) (first + (2 * lo + 2)))
            (2 * lo + 2) hi first
        else data
      else
        if cmp (aget data (first + lo)) (aget data (first + (2 * lo + 1))) < 0 then
          siftDownCmpFunc cmp fuel (lswap data (first + lo) (first + (2 * lo + 1)))
            (2 * lo + 1) hi first
        else data
    else data

/-- The heap-construction loop of `heapSortCmpFunc` (`i` counts down). -/
def heapBuild [Inhabited α] (cmp : α → α → Int) (data : List α)
    (hi first : Nat) : Nat → List α
  | 0 => siftDownCmpFunc cmp (hi + 1) data 0 hi first
  | i + 1 =>
    heapBuild cmp (siftDownCmpFunc cmp (hi + 1) data (i + 1) hi first) hi first i

/-- The pop loop of `heapSortCmpFunc` (`i` counts down). -/
def heapPop [Inhabited α] (cmp : α → α → Int) (data : List α) (first : Nat) :
    Nat → List α
  | 0 => siftDownCmpFunc cmp 1 (lswap data first first) 0 0 first
  | i + 1 =>
    let data := lswap data first (first + (i + 1))
    heapPop cmp (siftDownCmpFunc cmp (i + 2) data 0 (i + 1) first) first i

/-- `heapSortCmpFunc` from Go's `slices` package. -/
def heapSortCmpFunc [Inhabited α] (cmp : α → α → Int) (data : List α)
    (a b : Nat) : List α :=
  let hi := b - a
  if hi = 0 then data
  else heapPop cmp (heapBuild cmp data hi a ((hi - 1) / 2)) a (hi - 1)

/-- `reverseRangeCmpFunc`'s loop; `i` and `j` move towards each other,
so the explicit fuel of `b` at the call site is never exhausted. -/
def revRange [Inhabited α] : Nat → List α → Nat → Nat → List α
  | 0, data, _, _ => data
  | fuel + 1, data, i, j =>
    if i < j then revRange fuel (lswap data i j) (i + 1) (j - 1) else data

/-- `reverseRangeCmpFunc` from Go's `slices` package. -/
def reverseRangeCmpFunc [Inhabited α] (data : List α) (a b : Nat) : List α :=
  revRange b data a (b - 1)

/-- The `sortedHint` values of Go's `slices` package. -/
inductive Hint
  | unknown
  | increasing
  | decreasing
deriving DecidableEq, Repr, Inhabited

/-- `order2CmpFunc`: order two indices by their elements, counting swaps. -/
def order2CmpFunc [Inhabited α] (cmp : α → α → Int) (data : List α)
    (a b swaps : Nat) : Nat × Nat × Nat :=
  if cmp (aget data b) (aget data a) < 0 then (b, a, swaps + 1) else (a, b, swaps)

/-- `medianCmpFunc`: index of the median of three elements. -/
def medianCmpFunc [Inhabited α] (cmp : α → α → Int) (data : List α)
    (a b c swaps : Nat) : Nat × Nat :=
  let r1 := order2CmpFunc cmp data a b swaps
  let r2 := order2CmpFunc cmp data r1.2.1 c r1.2.2
  let r3 := order2CmpFunc cmp data r1.1 r2.1 r2.2.2
  (r3.2.1, r3.2.2)

/-- `medianAdjacentCmpFunc`: median of `data[a-1], data[a], data[a+1]`. -/
def medianAdjacentCmpFunc [Inhabited α] (cmp : α → α → Int) (data : List α)
    (a swaps : Nat) : Nat × Nat :=
  medianCmpFunc cmp data (a - 1) a (a + 1) swaps

/-- `choosePivotCmpFunc` from Go's `slices` package. -/
def choosePivotCmpFunc [Inhabited α] (cmp : α → α → Int) (data : List α)
    (a b : Nat) : Nat × Hint :=
  let l := b - a
  let i := a + l / 4 * 1
  let j := a + l / 4 * 2
  let k := a + l / 4 * 3
  let r :=
    if 8 ≤ l then
      let r0 :=
        if 50 ≤ l then
          let ri := medianAdjacentCmpFunc cmp data i 0
          let rj := medianAdjacentCmpFunc cmp data j ri.2
          let rk := medianAdjacentCmpFunc cmp data k rj.2
          (ri.1, rj.1, rk.1, rk.2)
        else (i, j, k, 0)
      let rm := medianCmpFunc cmp data r0.1 r0.2.1 r0.2.2.1 r0.2.2.2
      (rm.1, rm.2)
    else (j, 0)
  match r.2 with
  | 0 => (r.1, Hint.increasing)
  | 12 => (r.1, Hint.decreasing)
  | _ => (r.1, Hint.unknown)

/-- The halving loop behind `goBitsLen`; the fuel of `n + 1` dominates
the number of halvings of `n`. -/
def bitsLenLoop : Nat → Nat → Nat
  | 0, _ => 0
  | fuel + 1, n => if n = 0 then 0 else bitsLenLoop fuel (n / 2) + 1

/-- `bits.Len` on a `uint`: the number of bits needed to represent `n`. -/
def goBitsLen (n : Nat) : Nat := bitsLenLoop (n + 1) n

/-- The `xorshift.Next` step (`uint64` arithmetic). -/
def xorshiftNext (r : Nat) : Nat :=
  let r := (r ^^^ (r <<< 13)) % 2 ^ 64
  let r := r ^^^ (r >>> 7)
  (r ^^^ (r <<< 17)) % 2 ^ 64

/-- The three swap iterations of `breakPatternsCmpFunc`. -/
def breakPatternsLoop [Inhabited α] (data : List α)
    (a length idx modulus : Nat) : Nat → Nat → List α
  | _, 0 => data
  | random, n + 1 =>
    let random := xorshiftNext random
    let other := random &&& (modulus - 1)
    let other := if length ≤ other then other - length else other
    let i := 3 - (n + 1)
    breakPatternsLoop (lswap data (idx - 1 + i) (a + other)) a length idx modulus
      random n

/-- `breakPatternsCmpFunc` from Go's `slices` package (`xorshift` seeded
with the length). -/
def breakPatternsCmpFunc [Inhabited α] (data : List α) (a b : Nat) : List α :=
  let length := b - a
  if 8 ≤ length then
    let modulus := 2 ^ goBitsLen length
    let idx := a + length / 4 * 2 - 1
    breakPatternsLoop data a length idx modulus length 3
  else data

/-- The `i < b && !(cmp(data[i], data[i-1]) < 0)` advance of
`partialInsertionSortCmpFunc`; the cursor only moves towards `b`, so the
explicit fuel of `b + 1` at the call site is never exhausted. -/
def advanceSorted [Inhabited α] (cmp : α → α → Int) (data : List α)
    (b : Nat) : Nat → Nat → Nat
  | i, 0 => i
  | i, fuel + 1 =>
    if i < b ∧ ¬ cmp (aget data i) (aget data (i - 1)) < 0 then
      advanceSorted cmp data b (i + 1) fuel
    else i

/-- The shift-left loop of `partialInsertionSortCmpFunc`. -/
def shiftLeftLoop [Inhabited α] (cmp : α → α → Int) (data : List α) :
    Nat → List α
  | 0 => data
  | j + 1 =>
    if cmp (aget data (j + 1)) (aget data j) < 0 then
      shiftLeftLoop cmp (lswap data (j + 1) j) j
    else data

/-- The shift-right loop of `partialInsertionSortCmpFunc`; the cursor
only moves towards `b`, so the explicit fuel of `b + 1` at the call site
is never exhausted. -/
def shiftRightLoop [Inhabited α] (cmp : α → α → Int) :
    Nat → List α → Nat → Nat → List α
  | 0, data, _, _ => data
  | fuel + 1, data, b, j =>
    if j < b ∧ cmp (aget data j) (aget data (j - 1)) < 0 then
      shiftRightLoop cmp fuel (lswap data j (j - 1)) b (j + 1)
    else data

/-- The `maxSteps` loop of `partialInsertionSortCmpFunc`; the final
`Bool` is its return value (`true` means fully sorted). -/
def partialInsLoop [Inhabited α] (cmp : α → α → Int) (data : List α)
    (a b i : Nat) : Nat → List α × Bool
  | 0 => (data, false)
  | steps + 1 =>
    let i := advanceSorted cmp data b i (b + 1)
    if i = b then (data, true)
    else if b - a < 50 then (data, false)
    else
      let data := lswap data i (i - 1)
      let data := if 2 ≤ i - a then shiftLeftLoop cmp data (i - 1) else data
      let data := if 2 ≤ b - i then shiftRightLoop cmp (b + 1) data b (i + 1) else data
      partialInsLoop cmp data a b i steps

/-- `partialInsertionSortCmpFunc` from Go's `slices` package. -/
def partialInsertionSortCmpFunc [Inhabited α] (cmp : α → α → Int)
    (data : List α) (a b : Nat) : List α × Bool :=
  partialInsLoop cmp data a b (a + 1) 5

/-- The `i <= j && cmp(data[i], data[a]) < 0` forward scan of
`partitionCmpFunc`; the cursor only moves towards `j + 1`, so the
explicit fuel of `j + 2` at the call sites is never exhausted. -/
def scanLt [Inhabited α] (cmp : α → α → Int) (data : List α) (a j : Nat) :
    Nat → Nat → Nat
  | i, 0 => i
  | i, fuel + 1 =>
    if i ≤ j ∧ cmp (aget data i) (aget data a) < 0 then
      scanLt cmp data a j (i + 1) fuel
    else i

/-- The `i <= j && !(cmp(data[j], data[a]) < 0)` backward scan of
`partitionCmpFunc`.  The loop runs at most `j + 1` times in Go (every
call site has `i ≥ 1`, so the cursor never goes below zero there); the
explicit fuel of `j + 2` covers all its iterations. -/
def scanGe [Inhabited α] (cmp : α → α → Int) (data : List α) (a i : Nat) :
    Nat → Nat → Nat
  | _, 0 => 0
  | j, fuel + 1 =>
    if i ≤ j ∧ ¬ cmp (aget data j) (aget data a) < 0 then
      scanGe cmp data a i (j - 1) fuel
    else j

/-- The main swap loop of `partitionCmpFunc`: scan, swap, repeat; returns
the final data and cursors.  Each iteration shrinks the window `j - i`
by at least two, so the explicit fuel (`b` at the call site) is never
exhausted. -/
def partitionLoop [Inhabited α] (cmp : α → α → Int) :
    Nat → List α → Nat → Nat → Nat → List α × Nat × Nat
  | 0, data, _, i, j => (data, i, j)
  | fuel + 1, data, a, i, j =>
    let i' := scanLt cmp data a j i (j + 2)
    let j' := scanGe cmp data a i' j (j + 2)
    if i' > j' then (data, i', j')
    else partitionLoop cmp fuel (lswap data i' j') a (i' + 1) (j' - 1)

/-- `partitionCmpFunc` from Go's `slices` package: Hoare partition with
the pivot parked at `data[a]`; returns the new data, the pivot's final
position, and the `alreadyPartitioned` flag. -/
def partitionCmpFunc [Inhabited α] (cmp : α → α → Int) (data : List α)
    (a b pivot : Nat) : List α × Nat × Bool :=
  let data := lswap data a pivot
  let i := scanLt cmp data a (b - 1) (a + 1) (b + 1)
  let j := scanGe cmp data a i (b - 1) (b + 1)
  if i > j then (lswap data j a, j, true)
  else
    let data := lswap data i j
    let r := partitionLoop cmp (b + 1) data a (i + 1) (j - 1)
    (lswap r.1 r.2.2 a, r.2.2, false)

/-- The `i <= j && !(cmp(data[a], data[i]) < 0)` forward scan of
`partitionEqualCmpFunc`, fueled like `scanLt`. -/
def scanEqF [Inhabited α] (cmp : α → α → Int) (data : List α) (a j : Nat) :
    Nat → Nat → Nat
  | i, 0 => i
  | i, fuel + 1 =>
    if i ≤ j ∧ ¬ cmp (aget data a) (aget data i) < 0 then
      scanEqF cmp data a j (i + 1) fuel
    else i

/-- The `i <= j && cmp(data[a], data[j]) < 0` backward scan of
`partitionEqualCmpFunc`, fueled like `scanGe`. -/
def scanEqB [Inhabited α] (cmp : α → α → Int) (data : List α) (a i : Nat) :
    Nat → Nat → Nat
  | _, 0 => 0
  | j, fuel + 1 =>
    if i ≤ j ∧ cmp (aget data a) (aget data j) < 0 then
      scanEqB cmp data a i (j - 1) fuel
    else j

/-- The swap loop of `partitionEqualCmpFunc`; returns the final data and
the left cursor (the returned `newpivot`).  Fueled like
`partitionLoop`. -/
def partitionEqualLoop [Inhabited α] (cmp : α → α → Int) :
    Nat → List α → Nat → Nat → Nat → List α × Nat
  | 0, data, _, i, _ => (data, i)
  | fuel + 1, data, a, i, j =>
    let i' := scanEqF cmp data a j i (j + 2)
    let j' := scanEqB cmp data a i' j (j + 2)
    if i' > j' then (data, i')
    else partitionEqualLoop cmp fuel (lswap data i' j') a (i' + 1) (j' - 1)

/-- `partitionEqualCmpFunc` from Go's `slices` package. -/
def partitionEqualCmpFunc [Inhabited α] (cmp : α → α → Int) (data : List α)
    (a b pivot : Nat) : List α × Nat :=
  let data := lswap data a pivot
  partitionEqualLoop cmp (b + 1) data a (a + 1) (b - 1)

/-- `pdqsortCmpFunc` from Go's `slices` package, with explicit fuel (one
unit per loop iteration or recursive call; see `goSortFunc`). -/
def pdqsortCmpFunc [Inhabited α] (cmp : α → α → Int) :
    Nat → List α → Nat → Nat → Nat → Bool → Bool → List α
  | 0, data, _, _, _, _, _ => data
  | fuel + 1, data, a, b, limit, wasBalanced, wasPartitioned =>
    let length := b - a
    if length ≤ 12 then insertionSortCmpFunc cmp data a b
    else if limit = 0 then heapSortCmpFunc cmp data a b
    else
      let data := if wasBalanced then data else breakPatternsCmpFunc data a b
      let limit := if wasBalanced then limit else limit - 1
      let pj := choosePivotCmpFunc cmp data a b
      let data := if pj.2 = Hint.decreasing then reverseRangeCmpFunc data a b else data
      let pivot := if pj.2 = Hint.decreasing then (b - 1) - (pj.1 - a) else pj.1
      let hint := if pj.2 = Hint.decreasing then Hint.increasing else pj.2
      let pres :=
        if wasBalanced && wasPartitioned && decide (hint = Hint.increasing) then
          partialInsertionSortCmpFunc cmp data a b
        else (data, false)
      if pres.2 then pres.1
      else
        let data := pres.1
        if 0 < a ∧ ¬ cmp (aget data (a - 1)) (aget data pivot) < 0 then
          let pe := partitionEqualCmpFunc cmp data a b pivot
          pdqsortCmpFunc cmp fuel pe.1 pe.2 b limit wasBalanced wasPartitioned
        else
          let pr := partitionCmpFunc cmp data a b pivot
          let data := pr.1
          let mid := pr.2.1
          let wasPartitioned := pr.2.2
          let leftLen := mid - a
          let rightLen := b - mid
          let wasBalanced := decide (length / 8 ≤ min leftLen rightLen)
          if leftLen < rightLen then
            let data := pdqsortCmpFunc cmp fuel data a mid limit wasBalanced wasPartitioned
            pdqsortCmpFunc cmp fuel data (mid + 1) b limit wasBalanced wasPartitioned
          else
            let data := pdqsortCmpFunc cmp fuel data (mid + 1) b limit wasBalanced wasPartitioned
            pdqsortCmpFunc cmp fuel data a mid limit wasBalanced wasPartitioned

/-- `slices.SortFunc(x, cmp)`: `pdqsortCmpFunc(x, 0, n, bits.Len(n))`.
The fuel `8 * (n + 2)` strictly dominates the iteration count. -/
def goSortFunc [Inhabited α] (cmp : α → α → Int) (data : List α) : List α :=
  let n := data.length
  pdqsortCmpFunc cmp (8 * (n + 2)) data 0 n (goBitsLen n) true true

/-- The comparison closure of `Optimize`:
`func(i, j Layout) int { return -(i.alignment - j.alignment) }`. -/
def layCmp (i j : Layout) : Int := -(i.alignment - j.alignment)

/-- `Optimize` from `extract.go`: copy and sort the layout by the
alignment comparator, look the aggregate up (a nil-pointer dereference
if the name is absent), return a plain re-resolution for non-structs,
otherwise write the sorted field order back into the (shared) aggregate
record and re-resolve.  The updated context is returned alongside the
new metadata to expose the in-place mutation. -/
def Optimize (cat : Cat) (fuel : Nat) (ctx : Ctx) (name : String)
    (meta : AggregateMeta) : Res (Ctx × AggregateMeta) :=
  let layout := goSortFunc layCmp (meta.Layout.getD [])
  match lookupStr ctx.names name with
  | none => .error .crash
  | some id =>
    match ctx.store.get? id with
    | none => .error .crash
    | some agg =>
      if agg.Kind ≠ .structKind then
        match ResolveMeta cat ctx fuel name with
        | .error f => .error f
        | .ok m => .ok (ctx, m)
      else if layout.length < agg.Fields.length then .error .crash
      else
        let fields := (layout.take agg.Fields.length).map (fun L => L.field)
        let ctx' := { ctx with store := ctx.store.set id { agg with Fields := fields } }
        match ResolveMeta cat ctx' fuel name with
        | .error f => .error f
        | .ok m => .ok (ctx', m)

/-! ## The CLI option handler of `stropt.go` -/

/-- The error values declared in `stropt.go`.  `value` is
`ErrSizeAlignValue` (`"size and alignment must not be zero"`), which is
declared but never returned by the code. -/
inductive CliErr
  | nelem (category : String)
  | parsing (category : String)
  | value (category : String)
deriving DecidableEq, Repr, Inhabited

/-- Digit-sequence parser used by `parseIntGo`. -/
def parseDigits (ds : List Char) : Option Nat :=
  if ds = [] then none
  else ds.foldl (fun acc c =>
    acc.bind (fun n => if c.isDigit then some (10 * n + (c.toNat - 48)) else none))
    (some 0)

/-- Model of `strconv.ParseInt(s, 0, 0)` for plain decimal inputs with an
optional sign (base prefixes and digit underscores are not used by any
input considered here). -/
def parseIntGo (s : String) : Option Int :=
  match s.data with
  | '+' :: ds => (parseDigits ds).map (fun n => (n : Int))
  | '-' :: ds => (parseDigits ds).map (fun n => -(n : Int))
  | ds => (parseDigits ds).map (fun n => (n : Int))

/-- Character-level splitter behind `goSplitComma`. -/
def splitCommaAux : List Char → List Char → List (List Char)
  | [], acc => [acc.reverse]
  | c :: cs, acc =>
    if c = ',' then acc.reverse :: splitCommaAux cs []
    else splitCommaAux cs (c :: acc)

/-- `strings.Split(s, ",")`: the pieces of `s` between commas. -/
def goSplitComma (s : String) : List String :=
  (splitCommaAux s.data []).map (fun cs => String.mk cs)

/-- `alignSizeMeta` from `stropt.go`: flag positions to setters. -/
def alignSizeMeta : List (String × (Cat → Int → Int → Cat)) :=
  [("ptr", SetPointerAlignSize), ("enum", SetEnumAlignSize),
   ("char", SetCharAlignSize), ("short", SetShortAlignSize),
   ("int", SetIntAlignSize), ("long", SetLongAlignSize),
   ("long long", SetLongLongAlignSize), ("float", SetFloatAlignSize),
   ("double", SetDoubleAlignSize), ("long double", SetLongDoubleAlignSize)]

/-- The indexed loop of `handleSizeAlignOptions`. -/
def hsaoAux (cat : Cat) : List String → Nat → Except CliErr Cat
  | [], _ => .ok cat
  | flag :: rest, idx =>
    if flag = "" then hsaoAux cat rest (idx + 1)
    else
      let meta := alignSizeMeta.getD idx ("", fun c _ _ => c)
      let splitted := goSplitComma flag
      if splitted.length ≠ 2 then .error (.nelem meta.1)
      else
        match parseIntGo (splitted.getD 0 ""), parseIntGo (splitted.getD 1 "") with
        | some f, some s => hsaoAux (meta.2 cat f s) rest (idx + 1)
        | _, _ => .error (.parsing meta.1)

/-- `handleSizeAlignOptions` from `stropt.go`: for each non-empty flag,
split on `,`, require exactly two parseable integers, and call the
category's setter with them.  No value check of any kind is performed:
`ErrSizeAlignValue` is never produced. -/
def handleSizeAlignOptions (cat : Cat) (flags : List String) : Except CliErr Cat :=
  hsaoAux cat flags 0

/-- `true` iff a `handleSizeAlignOptions` outcome is the (dead)
`ErrSizeAlignValue` error. -/
def isValueErr : Except CliErr Cat → Bool
  | .error (.value _) => true
  | _ => false

/-! ## Specification-side definitions

These state, independently of the resolver's code, the quantities the
spec's sentences describe; the claim theorems compare the resolver's
results against them. -/

/-- `true` for the by-value field kinds (`Basic`, `Array`), whose types
are looked up; pointer, function-pointer and enum-entry fields are not. -/
def isValueField : Field → Bool
  | .basic _ _ _ => true
  | .array _ _ _ _ => true
  | _ => false

/-- Maximum of a list of integers with neutral element `0` (the spec's
"maximum alignment across all fields", as initialised by the code). -/
def listMax0 (l : List Int) : Int := l.foldr max 0

/-- Maximum of a list of integers with neutral element `-1` (the union
pass's running maximum size starts at `-1`). -/
def listMaxNeg1 (l : List Int) : Int := l.foldr max (-1)

/-- The spec's union trailing padding:
`(alignment - (maxSize mod alignment)) mod alignment`. -/
def unionPadding (alignment maxSize : Int) : Int :=
  (alignment - maxSize.tmod alignment).tmod alignment

/-- The alignment the spec pads to after a field: the *next* field's
resolved alignment, or `maxAlign` after the last field. -/
def specNext (maxAlign : Int) : List AggregateMeta → Int
  | [] => maxAlign
  | next :: _ => next.Alignment

/-- The spec formula for a single struct field: with `totalSize` already
including this field's size, the padding is
`(maxAlign - (totalSize mod maxAlign)) mod alignment(next field)`
(`mod maxAlign` for the last field). -/
def specPad (maxAlign totalSize : Int) (rest : List AggregateMeta) : Int :=
  (maxAlign - totalSize.tmod maxAlign).tmod (specNext maxAlign rest)

/-- The per-field paddings of the spec's struct second pass, walking the
resolved field metas in declaration order and accumulating `totalSize`. -/
def specPads (maxAlign : Int) : List AggregateMeta → Int → List Int
  | [], _ => []
  | curr :: rest, tot =>
    let tot := tot + curr.Size
    let pad := specPad maxAlign tot rest
    pad :: specPads maxAlign rest (tot + pad)

/-- The final accumulated `totalSize` of the spec's struct second pass. -/
def specTot (maxAlign : Int) : List AggregateMeta → Int → Int
  | [], tot => tot
  | curr :: rest, tot =>
    let tot := tot + curr.Size
    let pad := specPad maxAlign tot rest
    specTot maxAlign rest (tot + pad)

/-- The shape every symbol error produced by the resolver has: a chain
of `name %s:` wraps (each naming an aggregate that *was* found) ending
either in `cannot find symbol: <n>` with `n` absent from the index, or
in `cannot find symbol: inner '<t>'` with `t` absent from both the
catalog and the index. -/
inductive SymShape (cat : Cat) (ctx : Ctx) : SymErr → Prop
  | top (n : String) : ctxFind ctx n = none → SymShape cat ctx (.symbolTop n)
  | inner (t : String) : tmLookup cat.tm t = none → ctxFind ctx t = none →
      SymShape cat ctx (.symbolInner t)
  | wrap (n : String) (agg : Aggregate) (e : SymErr) :
      ctxFind ctx n = some agg → SymShape cat ctx e →
      SymShape cat ctx (.named n e)

/-- Non-increasing alignment order of a layout sequence. -/
def sortedByAlignDesc (ls : List Layout) : Prop :=
  ls.Pairwise (fun x y => y.alignment ≤ x.alignment)

/-- Stable insertion for the spec's "stable-sort by descending field
alignment": the new entry goes before the first strictly
lower-alignment entry, hence after all entries of equal alignment. -/
def stableInsert (x : Layout) : List Layout → List Layout
  | [] => [x]
  | y :: ys => if y.alignment < x.alignment then x :: y :: ys else y :: stableInsert x ys

/-- The spec's stable sort of a layout by descending field alignment:
insert the entries left to right. -/
def stableDescSort (l : List Layout) : List Layout :=
  l.foldl (fun acc x => stableInsert x acc) []

/-- `true` iff an outcome is a modelled Go runtime panic (an abort, not
a returned error value). -/
def isCrashR {α : Type} : Except Fault α → Bool
  | .error .crash => true
  | _ => false

/-- The sizes recorded in a layout sequence. -/
def laySizes (ls : List Layout) : List Int := ls.map (fun L => L.size)

/-- The alignments recorded in a layout sequence. -/
def layAligns (ls : List Layout) : List Int := ls.map (fun L => L.alignment)

/-- The paddings recorded in a layout sequence. -/
def layPads (ls : List Layout) : List Int := ls.map (fun L => L.padding)

/-- The fields recorded in a layout sequence. -/
def layFields (ls : List Layout) : List Field := ls.map (fun L => L.field)

/-! ## Concrete inputs used by the claim witnesses and counterexamples -/

/-- `struct a1 { int32_t a; int8_t b; int16_t c; int32_t d; int64_t e; }`
(the repository's own first test case). -/
def exAggA1 : Aggregate :=
  ⟨"struct a1", "", .structKind,
   [.basic [] "int32_t" "a", .basic [] "int8_t" "b", .basic [] "int16_t" "c",
    .basic [] "int32_t" "d", .basic [] "int64_t" "e"]⟩

/-- Index for `struct a1`. -/
def exCtxA1 : Ctx := ⟨[("struct a1", 0), ("a1", 0)], [exAggA1]⟩

/-- `union u2 { char arr[9]; double b; }` (spec scenario 5). -/
def exAggU2 : Aggregate :=
  ⟨"union u2", "", .unionKind, [.array [] "char" "arr" 9, .basic [] "double" "b"]⟩

/-- Index for `union u2`. -/
def exCtxU2 : Ctx := ⟨[("union u2", 0), ("u2", 0)], [exAggU2]⟩

/-- `union un { double d; float f; unsigned char uc; }` (a test case of
the repository). -/
def exAggUn : Aggregate :=
  ⟨"union un", "", .unionKind,
   [.basic [] "double" "d", .basic [] "float" "f",
    .basic ["unsigned"] "char" "uc"]⟩

/-- Index for `union un`. -/
def exCtxUn : Ctx := ⟨[("union un", 0), ("un", 0)], [exAggUn]⟩

/-- A catalog state with a negative `char` size, reachable through the
`-char` CLI flag (`handleSizeAlignOptions` performs no value check). -/
def exCatNeg : Cat := ⟨[("char", ⟨1, -2⟩)], 8, 8, 4, 4⟩

/-- `union u { char c; }` resolved under `exCatNeg`. -/
def exAggNegU : Aggregate := ⟨"union u", "", .unionKind, [.basic [] "char" "c"]⟩

/-- Index for `exAggNegU`. -/
def exCtxNegU : Ctx := ⟨[("union u", 0), ("u", 0)], [exAggNegU]⟩

/-- `struct p { undefined_t *p; void (*fp)(int); }`: both field types are
absent from catalog and index, but neither is ever looked up. -/
def exAggPtr : Aggregate :=
  ⟨"struct p", "", .structKind,
   [.pointer [] "undefined_t" "p" [], .funcPointer "void" "fp" ["int"]]⟩

/-- Index for `exAggPtr`. -/
def exCtxPtr : Ctx := ⟨[("struct p", 0), ("p", 0)], [exAggPtr]⟩

/-- `struct o { missing_t m; }` with `missing_t` absent everywhere (a
genuine `SymbolNotFound` case, for the C4 witness). -/
def exAggMiss : Aggregate :=
  ⟨"struct o", "", .structKind, [.basic [] "missing_t" "m"]⟩

/-- Index for `exAggMiss`. -/
def exCtxMiss : Ctx := ⟨[("struct o", 0), ("o", 0)], [exAggMiss]⟩

/-- The catalog after `SetLongAlignSize(6, 6)` — reachable through the
`-long 6,6` CLI flag. -/
def exCat66 : Cat := SetLongAlignSize defaultCat 6 6

/-- `struct x { int b; char c; long a; }`, resolved under `exCat66`. -/
def exAggX : Aggregate :=
  ⟨"struct x", "", .structKind,
   [.basic [] "int" "b", .basic [] "char" "c", .basic [] "long" "a"]⟩

/-- Index for `exAggX`. -/
def exCtxX : Ctx := ⟨[("struct x", 0), ("x", 0)], [exAggX]⟩

/-- `struct w { int8_t a; int64_t b; }` (C5 witness input). -/
def exAggW : Aggregate :=
  ⟨"struct w", "", .structKind,
   [.basic [] "int8_t" "a", .basic [] "int64_t" "b"]⟩

/-- Index for `exAggW`. -/
def exCtxW : Ctx := ⟨[("struct w", 0), ("w", 0)], [exAggW]⟩

/-- The `n`-th field of the 13-field struct `exAggBig`: four `long`s,
four `char`s, four `int`s and one `short`, named `f0`, ..., `f12`. -/
def exBigField (n : Nat) : Field :=
  let nm := "f" ++ toString n
  if n < 4 then .basic [] "long" nm
  else if n < 8 then .basic [] "char" nm
  else if n < 12 then .basic [] "int" nm
  else .basic [] "short" nm

/-- `struct big` with 13 fields (more than the 12-element insertion-sort
cutoff of Go's `slices.SortFunc`). -/
def exAggBig : Aggregate :=
  ⟨"struct big", "", .structKind, (List.range 13).map exBigField⟩

/-- Index for `struct big`. -/
def exCtxBig : Ctx := ⟨[("struct big", 0), ("big", 0)], [exAggBig]⟩

/-- `struct s3 { int32_t a; int8_t b; int32_t c; }` (C6 witness input,
three fields, below the insertion-sort cutoff). -/
def exAggS3 : Aggregate :=
  ⟨"struct s3", "", .structKind,
   [.basic [] "int32_t" "a", .basic [] "int8_t" "b", .basic [] "int32_t" "c"]⟩

/-- Index for `struct s3`. -/
def exCtxS3 : Ctx := ⟨[("struct s3", 0), ("s3", 0)], [exAggS3]⟩

/-- A union with zero fields (the malformed edge case of spec section 7). -/
def exAggEmptyU : Aggregate := ⟨"union e", "", .unionKind, []⟩

/-- Index for the empty union. -/
def exCtxEmptyU : Ctx := ⟨[("union e", 0), ("e", 0)], [exAggEmptyU]⟩

/-- `typedef struct { short a; } S;`: an anonymous typedef'd struct —
its `Name` is empty and it is indexed only under the alias `S`. -/
def exAggAnon : Aggregate := ⟨"", "S", .structKind, [.basic [] "short" "a"]⟩

/-- `struct outer { S s; }`: contains the anonymous typedef'd type by
value. -/
def exAggOuter : Aggregate :=
  ⟨"struct outer", "", .structKind, [.basic [] "S" "s"]⟩

/-- Index holding both: `S` maps to the anonymous record, whose `Name`
(`""`) is not a key. -/
def exCtxAnon : Ctx :=
  ⟨[("S", 0), ("struct outer", 1), ("outer", 1)], [exAggAnon, exAggOuter]⟩

/-- The context `Optimize` leaves behind on a successful struct run:
the looked-up aggregate's fields are replaced by the fields of the first
`len(agg.Fields)` entries of the sorted layout (notation for the lemmas
about `Optimize`). -/
def optimizedStore (ctx : Ctx) (id : Nat) (agg : Aggregate)
    (layout : List Layout) : Ctx :=
  let fields := (layout.take agg.Fields.length).map (fun L => L.field)
  { ctx with store := ctx.store.set id { agg with Fields := fields } }

/-- The resolver's output for `struct w { int8_t a; int64_t b; }`
(C5 witness). -/
def exMetaW : AggregateMeta :=
  ⟨16, 8, some [⟨.basic [] "int8_t" "a", 1, 1, 7, none⟩,
    ⟨.basic [] "int64_t" "b", 8, 8, 0, none⟩]⟩

/-- The context after optimizing `struct w` (C5 witness): the two
fields are swapped in place. -/
def exCtxW2 : Ctx :=
  ⟨[("struct w", 0), ("w", 0)],
   [⟨"struct w", "", .structKind,
     [.basic [] "int64_t" "b", .basic [] "int8_t" "a"]⟩]⟩

/-- The re-resolved metadata after optimizing `struct w` (C5 witness). -/
def exMetaW2 : AggregateMeta :=
  ⟨16, 8, some [⟨.basic [] "int64_t" "b", 8, 8, 0, none⟩,
    ⟨.basic [] "int8_t" "a", 1, 1, 7, none⟩]⟩

/-- The layout of `struct s3` as the resolver reports it (three entries,
alignments `4, 1, 4`), used as the C6 witness input. -/
def exLayS3 : List Layout :=
  [⟨.basic [] "int32_t" "a", 4, 4, 0, none⟩,
   ⟨.basic [] "int8_t" "b", 1, 1, 3, none⟩,
   ⟨.basic [] "int32_t" "c", 4, 4, 0, none⟩]

/-- CLI flag vector passing `0,0` for the `char` category (all other
flags unset). -/
def exFlagsZero : List String := ["", "", "0,0", "", "", "", "", "", "", ""]

/-- The catalog after applying the AVR preset to the defaults. -/
def exCatAvr : Cat := SetAvrSys defaultCat

/-! # Theorems -/

/-! ## Inversion lemmas for the resolver -/

theorem firstPass_cons_ok {resolve : String → Res AggregateMeta} {cat ctx f rest ms M}
    (h : firstPass resolve cat ctx (f :: rest) = .ok (ms, M)) :
    ∃ curr restMetas restMax, fieldStep resolve cat ctx f = .ok curr ∧
      firstPass resolve cat ctx rest = .ok (restMetas, restMax) ∧
      ms = curr :: restMetas ∧ M = max curr.Alignment restMax := by
  simp only [firstPass] at h
  split at h
  · exact absurd h (by simp)
  · split at h
    · exact absurd h (by simp)
    · rename_i curr hstep p restMetas restMax hrest
      refine ⟨curr, restMetas, restMax, hstep, hrest, ?_⟩
      simpa [eq_comm] using h

theorem firstPass_nil_ok {resolve : String → Res AggregateMeta} {cat ctx ms M}
    (h : firstPass resolve cat ctx [] = .ok (ms, M)) : ms = [] ∧ M = 0 := by
  simpa [firstPass, eq_comm] using h

theorem firstPass_length {resolve : String → Res AggregateMeta} {cat ctx} :
    ∀ {fs : List Field} {ms M}, firstPass resolve cat ctx fs = .ok (ms, M) →
      ms.length = fs.length := by
  intro fs
  induction fs with
  | nil =>
    intro ms M h
    obtain ⟨h1, _⟩ := firstPass_nil_ok h
    simp [h1]
  | cons f rest ih =>
    intro ms M h
    obtain ⟨curr, restMetas, restMax, _, hrest, hms, _⟩ := firstPass_cons_ok h
    simp [hms, ih hrest]

/-- The maximum alignment computed by `firstPass` is the `0`-based
maximum of the resolved alignments. -/
theorem firstPass_max {resolve : String → Res AggregateMeta} {cat ctx} :
    ∀ {fs : List Field} {ms M}, firstPass resolve cat ctx fs = .ok (ms, M) →
      M = listMax0 (ms.map (fun m => m.Alignment)) := by
  intro fs
  induction fs with
  | nil =>
    intro ms M h
    obtain ⟨h1, h2⟩ := firstPass_nil_ok h
    simp [h1, h2, listMax0]
  | cons f rest ih =>
    intro ms M h
    obtain ⟨curr, restMetas, restMax, _, hrest, hms, hM⟩ := firstPass_cons_ok h
    simp [hms, hM, listMax0, ih hrest]

theorem listMax0_le {l : List Int} : ∀ x ∈ l, x ≤ listMax0 l := by
  induction l with
  | nil => simp
  | cons a t ih =>
    intro x hx
    rcases hx with hx | hx
    · simp [listMax0]
    · rename_i hmem
      calc x ≤ listMax0 t := ih x hmem
        _ ≤ listMax0 (a :: t) := by simp [listMax0]

theorem listMax0_cons (a : Int) (t : List Int) :
    listMax0 (a :: t) = max a (listMax0 t) := rfl

theorem listMax0_mem {l : List Int} (h : listMax0 l ≠ 0) : listMax0 l ∈ l := by
  induction l with
  | nil => simp [listMax0] at h
  | cons a t ih =>
    rcases le_total (listMax0 t) a with hle | hle
    · rw [listMax0_cons, max_eq_left hle]
      exact List.mem_cons_self a t
    · rw [listMax0_cons, max_eq_right hle] at h ⊢
      exact List.mem_cons_of_mem a (ih h)

theorem listMax0_nonneg (l : List Int) : 0 ≤ listMax0 l := by
  induction l with
  | nil => simp [listMax0]
  | cons a t ih =>
    simp only [listMax0, List.foldr] at *
    omega

theorem listMaxNeg1_le {l : List Int} : ∀ x ∈ l, x ≤ listMaxNeg1 l := by
  induction l with
  | nil => simp
  | cons a t ih =>
    intro x hx
    rcases hx with hx | hx
    · simp [listMaxNeg1]
    · rename_i hmem
      calc x ≤ listMaxNeg1 t := ih x hmem
        _ ≤ listMaxNeg1 (a :: t) := by simp [listMaxNeg1]

theorem listMaxNeg1_cons (a : Int) (t : List Int) :
    listMaxNeg1 (a :: t) = max a (listMaxNeg1 t) := rfl

theorem listMaxNeg1_mem {l : List Int} (h : listMaxNeg1 l ≠ -1) :
    listMaxNeg1 l ∈ l := by
  induction l with
  | nil => simp [listMaxNeg1] at h
  | cons a t ih =>
    rcases le_total (listMaxNeg1 t) a with hle | hle
    · rw [listMaxNeg1_cons, max_eq_left hle]
      exact List.mem_cons_self a t
    · rw [listMaxNeg1_cons, max_eq_right hle] at h ⊢
      exact List.mem_cons_of_mem a (ih h)

/-- The union pass's running-maximum fold equals the `-1`-based list
maximum of the sizes. -/
theorem foldr_max_swap : ∀ (s : List Int) (x y : Int),
    s.foldr max (max x y) = max y (s.foldr max x) := by
  intro s
  induction s with
  | nil => intro x y; simp [max_comm]
  | cons b u ihs =>
    intro x y
    simp only [List.foldr, ihs]
    rw [max_left_comm]

theorem unionFold_eq_listMaxNeg1 (ms : List AggregateMeta) :
    ms.foldl (fun acc m => if m.Size > acc then m.Size else acc) (-1) =
      listMaxNeg1 (ms.map (fun m => m.Size)) := by
  have step : (fun (acc : Int) (m : AggregateMeta) =>
      if m.Size > acc then m.Size else acc) = fun acc m => max acc m.Size := by
    funext acc m
    rcases lt_or_le acc m.Size with h | h
    · simp [h, max_eq_right h.le]
    · have : ¬ m.Size > acc := not_lt.mpr h
      simp [this, max_eq_left h]
  rw [step]
  have general : ∀ (l : List AggregateMeta) (acc : Int),
      l.foldl (fun acc m => max acc m.Size) acc =
        (l.map (fun m => m.Size)).foldr max acc := by
    intro l
    induction l with
    | nil => intro acc; rfl
    | cons a t ih =>
      intro acc
      simp only [List.foldl, List.map, List.foldr]
      rw [ih (max acc a.Size), foldr_max_swap]
  exact general ms (-1)

theorem secondPass_nil_ok {M t0 ls fin} (h : secondPass M [] t0 = .ok (ls, fin)) :
    ls = [] ∧ fin = t0 := by
  simpa [secondPass, eq_comm] using h

theorem secondPass_cons_ok {M : Int} {f : Field} {curr : AggregateMeta}
    {rest : List (Field × AggregateMeta)} {t0 : Int} {ls fin}
    (h : secondPass M ((f, curr) :: rest) t0 = .ok (ls, fin)) :
    ∃ r padding restLayouts,
      goMod (t0 + curr.Size) M = .ok r ∧
      goMod (M - r) (specNext M (rest.map Prod.snd)) = .ok padding ∧
      secondPass M rest (t0 + curr.Size + padding) = .ok (restLayouts, fin) ∧
      ls = (⟨f, curr.Size, curr.Alignment, padding, curr.Layout⟩ : Layout)
             :: restLayouts := by
  have hmatch : nextAlign M rest = specNext M (rest.map Prod.snd) := by
    cases rest with
    | nil => rfl
    | cons q t => rfl
  rw [← hmatch]
  simp only [secondPass] at h
  split at h
  · exact absurd h (by simp)
  · split at h
    · exact absurd h (by simp)
    · split at h
      · exact absurd h (by simp)
      · rename_i s1 r hr s2 padding hpad s3 restLayouts fin' hrest
        have hpair : ((⟨f, curr.Size, curr.Alignment, padding, curr.Layout⟩ : Layout)
            :: restLayouts) = ls ∧ fin' = fin := by
          have := h
          simp only [Except.ok.injEq, Prod.mk.injEq] at this
          exact this
        refine ⟨r, padding, restLayouts, hr, hpad, ?_, hpair.1.symm⟩
        rw [← hpair.2]
        exact hrest

theorem goMod_ok {x m r : Int} (h : goMod x m = .ok r) :
    m ≠ 0 ∧ r = x.tmod m := by
  by_cases hm : m = 0
  · simp [goMod, hm] at h
  · simp [goMod, hm] at h
    exact ⟨hm, h.symm⟩

/-- Characterisation of a successful struct second pass: the layout
reports each field with the sizes/alignments resolved by the first
pass, the paddings are exactly the spec formula's values, and the final
size is the spec's accumulated `totalSize`. -/
theorem secondPass_spec {M : Int} :
    ∀ {ps : List (Field × AggregateMeta)} {t0 : Int} {ls : List Layout} {fin : Int},
      secondPass M ps t0 = .ok (ls, fin) →
      layFields ls = ps.map Prod.fst ∧
      laySizes ls = ps.map (fun p => p.2.Size) ∧
      layAligns ls = ps.map (fun p => p.2.Alignment) ∧
      layPads ls = specPads M (ps.map Prod.snd) t0 ∧
      fin = specTot M (ps.map Prod.snd) t0 := by
  intro ps
  induction ps with
  | nil =>
    intro t0 ls fin h
    obtain ⟨h1, h2⟩ := secondPass_nil_ok h
    simp [h1, h2, layFields, laySizes, layAligns, layPads, specPads, specTot]
  | cons p rest ih =>
    intro t0 ls fin h
    obtain ⟨f, curr⟩ := p
    obtain ⟨r, padding, restLayouts, hr, hpad, hrest, hls⟩ := secondPass_cons_ok h
    obtain ⟨hM, hrv⟩ := goMod_ok hr
    obtain ⟨hPadTo, hpv⟩ := goMod_ok hpad
    have hpadval : padding = specPad M (t0 + curr.Size) (rest.map Prod.snd) := by
      rw [hpv, hrv, specPad]
    obtain ⟨ihf, ihs, iha, ihp, iht⟩ := ih hrest
    subst hls
    simp only [layFields, laySizes, layAligns, layPads] at ihf ihs iha ihp ⊢
    refine ⟨?_, ?_, ?_, ?_, ?_⟩
    · simp [ihf]
    · simp [ihs]
    · simp [iha]
    · simp only [List.map_cons, specPads]
      rw [← hpadval]
      simp only [List.cons.injEq, true_and]
      rw [ihp, hpadval]
    · simp only [List.map_cons, specTot]
      rw [← hpadval, iht, hpadval]

/-- Inversion of a successful struct resolution. -/
theorem ResolveMeta_struct_ok {cat ctx fuel name agg meta}
    (hfind : ctxFind ctx name = some agg)
    (hkind : agg.Kind = .structKind)
    (hok : ResolveMeta cat ctx (fuel + 1) name = .ok meta) :
    ∃ ms M ls fin,
      firstPass (ResolveMeta cat ctx fuel) cat ctx agg.Fields = .ok (ms, M) ∧
      secondPass M (agg.Fields.zip ms) 0 = .ok (ls, fin) ∧
      meta = ⟨fin, M, some ls⟩ := by
  simp only [ResolveMeta, hfind] at hok
  split at hok
  · exact absurd hok (by simp)
  · rename_i p ms M hfp
    rw [hkind] at hok
    simp only [reduceCtorEq, if_false] at hok
    split at hok
    · exact absurd hok (by simp)
    · rename_i q ls fin hsp
      exact ⟨ms, M, ls, fin, hfp, hsp, by simpa [eq_comm] using hok⟩

/-- A successful struct second pass over a non-empty field list forces a
non-zero `maxAlign` (the first `%` would otherwise panic). -/
theorem secondPass_ne_zero {M : Int} {f : Field} {curr rest t0 ls fin}
    (h : secondPass M ((f, curr) :: rest) t0 = .ok (ls, fin)) : M ≠ 0 := by
  obtain ⟨r, padding, restLayouts, hr, _, _, _⟩ := secondPass_cons_ok h
  exact (goMod_ok hr).1

/-- C1.  For every struct that resolves successfully, the second pass
walks the fields in declaration order accumulating `totalSize`, and the
padding recorded for each field is exactly the spec formula
`(maxAlign - (totalSize mod maxAlign)) mod alignment(next field)`
(`mod maxAlign` for the last field); the reported size is the final
accumulated `totalSize`, and the reported alignment is `maxAlign`, the
maximum resolved field alignment. -/
theorem c1_struct_second_pass {cat ctx fuel name agg ms M meta}
    (hfind : ctxFind ctx name = some agg)
    (hkind : agg.Kind = .structKind)
    (hfp : firstPass (ResolveMeta cat ctx fuel) cat ctx agg.Fields = .ok (ms, M))
    (hok : ResolveMeta cat ctx (fuel + 1) name = .ok meta) :
    meta.Alignment = M ∧
    M = listMax0 (ms.map (fun m => m.Alignment)) ∧
    (∀ m ∈ ms, m.Alignment ≤ M) ∧
    (agg.Fields ≠ [] → M ∈ ms.map (fun m => m.Alignment)) ∧
    meta.Size = specTot M ms 0 ∧
    ∃ ls, meta.Layout = some ls ∧
      layFields ls = agg.Fields ∧
      laySizes ls = ms.map (fun m => m.Size) ∧
      layAligns ls = ms.map (fun m => m.Alignment) ∧
      layPads ls = specPads M ms 0 := by
  obtain ⟨ms', M', ls, fin, hfp', hsp, hmeta⟩ :=
    ResolveMeta_struct_ok hfind hkind hok
  have hms : ms = ms' ∧ M = M' := by
    have := hfp.symm.trans hfp'
    simp only [Except.ok.injEq, Prod.mk.injEq] at this
    exact this
  obtain ⟨hms1, hms2⟩ := hms
  subst hms1
  subst hms2
  have hlen : ms.length = agg.Fields.length := firstPass_length hfp'
  have hzip_fst : (agg.Fields.zip ms).map Prod.fst = agg.Fields :=
    List.map_fst_zip _ _ (le_of_eq hlen.symm)
  have hzip_snd : (agg.Fields.zip ms).map Prod.snd = ms :=
    List.map_snd_zip _ _ (le_of_eq hlen)
  obtain ⟨hf, hs, ha, hp, ht⟩ := secondPass_spec hsp
  rw [hzip_fst] at hf
  rw [hzip_snd] at hp ht
  have hs' : laySizes ls = ms.map (fun m => m.Size) := by
    rw [hs]
    conv_rhs => rw [← hzip_snd]
    rw [List.map_map]
    rfl
  have ha' : layAligns ls = ms.map (fun m => m.Alignment) := by
    rw [ha]
    conv_rhs => rw [← hzip_snd]
    rw [List.map_map]
    rfl
  have hmax := firstPass_max hfp'
  refine ⟨by rw [hmeta], hmax, ?_, ?_, by rw [hmeta]; exact ht, ls, by rw [hmeta], hf, hs', ha', hp⟩
  · intro m hm
    have := listMax0_le (m.Alignment) (List.mem_map_of_mem _ hm)
    rw [← hmax] at this
    exact this
  · intro hne
    have hM0 : M ≠ 0 := by
      cases hfs : agg.Fields with
      | nil => exact absurd hfs hne
      | cons f frest =>
        rw [hfs] at hsp hlen
        cases hms0 : ms with
        | nil => rw [hms0] at hlen; simp at hlen
        | cons m mrest =>
          rw [hms0] at hsp
          exact secondPass_ne_zero (by simpa using hsp)
    have := listMax0_mem (l := ms.map (fun m => m.Alignment)) (by rw [← hmax]; exact hM0)
    rw [← hmax] at this
    exact this

/-- Witness for C1: on the concrete struct `a1` (int32_t a; int8_t b;
int16_t c; int32_t d; int64_t e) under the default catalog, the
paddings evaluate to `[0, 1, 0, 4, 0]`, the size to `24` and the
alignment to `8`, matching the resolver's output. -/
theorem c1_witness :
    ∃ meta, ResolveMeta defaultCat exCtxA1 2 "struct a1" = .ok meta ∧
      meta.Alignment = 8 ∧ meta.Size = 24 ∧
      specTot 8 [⟨4, 4, none⟩, ⟨1, 1, none⟩, ⟨2, 2, none⟩, ⟨4, 4, none⟩, ⟨8, 8, none⟩] 0 = 24 ∧
      specPads 8 [⟨4, 4, none⟩, ⟨1, 1, none⟩, ⟨2, 2, none⟩, ⟨4, 4, none⟩, ⟨8, 8, none⟩] 0 =
        [0, 1, 0, 4, 0] ∧
      ∃ ls, meta.Layout = some ls ∧ layPads ls = specPads 8
        [⟨4, 4, none⟩, ⟨1, 1, none⟩, ⟨2, 2, none⟩, ⟨4, 4, none⟩, ⟨8, 8, none⟩] 0 := by
  have h := @c1_struct_second_pass defaultCat exCtxA1 1 "struct a1" exAggA1
    [⟨4, 4, none⟩, ⟨1, 1, none⟩, ⟨2, 2, none⟩, ⟨4, 4, none⟩, ⟨8, 8, none⟩]
    8 _ rfl rfl rfl rfl
  obtain ⟨ha, _, _, _, hsz, ls, hl, _, _, _, hp⟩ := h
  refine ⟨_, rfl, ha, ?_, by decide, by decide, ls, hl, hp⟩
  rw [hsz]
  decide

/-- Inversion of a successful union resolution. -/
theorem ResolveMeta_union_ok {cat ctx fuel name agg meta}
    (hfind : ctxFind ctx name = some agg)
    (hkind : agg.Kind = .unionKind)
    (hok : ResolveMeta cat ctx (fuel + 1) name = .ok meta) :
    ∃ ms M,
      firstPass (ResolveMeta cat ctx fuel) cat ctx agg.Fields = .ok (ms, M) ∧
      resolveUnion agg ms M = .ok meta := by
  simp only [ResolveMeta, hfind] at hok
  split at hok
  · exact absurd hok (by simp)
  · rename_i p ms M hfp
    rw [hkind] at hok
    simp only [reduceCtorEq, if_false, if_true] at hok
    exact ⟨ms, M, hfp, hok⟩

/-- Inversion of a successful `resolveUnion`. -/
theorem resolveUnion_ok {agg : Aggregate} {ms : List AggregateMeta} {mx : Int}
    {meta : AggregateMeta} (h : resolveUnion agg ms mx = .ok meta) :
    ∃ r padding n,
      goMod (ms.foldl (fun acc m => if m.Size > acc then m.Size else acc) (-1)) mx = .ok r ∧
      goMod (mx - r) mx = .ok padding ∧
      ((agg.Fields.zip ms).map unionEntry).length = n + 1 ∧
      meta = ⟨(ms.foldl (fun acc m => if m.Size > acc then m.Size else acc) (-1)) + padding, mx,
        some (((agg.Fields.zip ms).map unionEntry).set n
          (withPadding (aget ((agg.Fields.zip ms).map unionEntry) n) padding))⟩ := by
  simp only [resolveUnion, aget] at h ⊢
  split at h
  · exact absurd h (by simp)
  · split at h
    · exact absurd h (by simp)
    · split at h
      · exact absurd h (by simp)
      · simp only [Except.ok.injEq] at h
        exact ⟨_, _, _, by assumption, by assumption, by assumption, h.symm⟩

/-- C2 (amended).  For every non-empty union that resolves successfully,
the reported alignment is the maximum alignment across the fields
(attained by one of them), and the reported size is
`maxSize + (alignment - (maxSize mod alignment)) mod alignment` where
`maxSize` is the larger of `-1` and the numerically largest resolved
field size (the running maximum starts at `-1`; whenever some field has
nonnegative size — in particular under the built-in presets — this is
exactly the largest resolved field size). -/
theorem c2_union_size_alignment {cat ctx fuel name agg ms M meta}
    (hfind : ctxFind ctx name = some agg)
    (hkind : agg.Kind = .unionKind)
    (hne : agg.Fields ≠ [])
    (hfp : firstPass (ResolveMeta cat ctx fuel) cat ctx agg.Fields = .ok (ms, M))
    (hok : ResolveMeta cat ctx (fuel + 1) name = .ok meta) :
    meta.Alignment = M ∧
    (∀ m ∈ ms, m.Alignment ≤ M) ∧
    M ∈ ms.map (fun m => m.Alignment) ∧
    meta.Size = listMaxNeg1 (ms.map (fun m => m.Size)) +
      unionPadding M (listMaxNeg1 (ms.map (fun m => m.Size))) ∧
    (∀ m ∈ ms, m.Size ≤ listMaxNeg1 (ms.map (fun m => m.Size))) ∧
    (listMaxNeg1 (ms.map (fun m => m.Size)) ∈ ms.map (fun m => m.Size) ∨
      listMaxNeg1 (ms.map (fun m => m.Size)) = -1) := by
  obtain ⟨ms', M', hfp', hru⟩ := ResolveMeta_union_ok hfind hkind hok
  have hms : ms = ms' ∧ M = M' := by
    have := hfp.symm.trans hfp'
    simp only [Except.ok.injEq, Prod.mk.injEq] at this
    exact this
  obtain ⟨hms1, hms2⟩ := hms
  subst hms1
  subst hms2
  obtain ⟨r, padding, n, hr, hpad, hn, hmeta⟩ := resolveUnion_ok hru
  obtain ⟨hM0, hrv⟩ := goMod_ok hr
  obtain ⟨-, hpv⟩ := goMod_ok hpad
  have hfold := unionFold_eq_listMaxNeg1 ms
  have hpadval : padding = unionPadding M (listMaxNeg1 (ms.map (fun m => m.Size))) := by
    rw [hpv, hrv, hfold, unionPadding]
  have hmax := firstPass_max hfp'
  refine ⟨by rw [hmeta], ?_, ?_, ?_, ?_, ?_⟩
  · intro m hm
    have := listMax0_le (m.Alignment) (List.mem_map_of_mem _ hm)
    rw [← hmax] at this
    exact this
  · have := listMax0_mem (l := ms.map (fun m => m.Alignment)) (by rw [← hmax]; exact hM0)
    rw [← hmax] at this
    exact this
  · rw [hmeta]
    simp only
    rw [hfold, hpadval]
  · intro m hm
    exact listMaxNeg1_le (m.Size) (List.mem_map_of_mem _ hm)
  · by_cases hcase : listMaxNeg1 (ms.map (fun m => m.Size)) = -1
    · exact Or.inr hcase
    · exact Or.inl (listMaxNeg1_mem hcase)

/-- Witness for C2 (amended) at `union un { double d; float f; unsigned
char uc; }` under the default catalog: size 8, alignment 8, the largest
field size 8 attained by the first field. -/
theorem c2_witness :
    ∃ meta, ResolveMeta defaultCat exCtxUn 2 "union un" = .ok meta ∧
      meta.Alignment = 8 ∧
      meta.Size = listMaxNeg1 [8, 4, 1] + unionPadding 8 (listMaxNeg1 [8, 4, 1]) ∧
      meta.Size = 8 := by
  have h := @c2_union_size_alignment defaultCat exCtxUn 1 "union un" exAggUn
    [⟨8, 8, none⟩, ⟨4, 4, none⟩, ⟨1, 1, none⟩] 8 _
    rfl rfl (by decide) rfl rfl
  obtain ⟨ha, -, -, hs, -, -⟩ := h
  refine ⟨_, rfl, ha, ?_, ?_⟩
  · simpa using hs
  · rw [hs]
    decide

/-- Counterexample to C2 as stated: with the `char` catalog entry set to
size `-2` (reachable through the unchecked `-char` CLI flag), the union
`union u { char c; }` resolves to size `-1`, not to
`maxFieldSize + padding = -2`: the running maximum starts at `-1`, which
exceeds every (all-negative) field size. -/
theorem c2_counterexample :
    ResolveMeta exCatNeg exCtxNegU 2 "union u" =
      .ok ⟨-1, 1, some [⟨.basic [] "char" "c", -2, 1, 0, none⟩]⟩ ∧
    listMaxNeg1 [(-2 : Int)] = -1 ∧
    ((-2 : Int) + unionPadding 1 (-2)) = -2 ∧
    ((-1 : Int) ≠ -2) := by
  refine ⟨rfl, by decide, by decide, by decide⟩

theorem set_getD_self {α : Type} : ∀ (l : List α) (n : Nat) (d : α),
    n < l.length → l.set n (l.getD n d) = l := by
  intro l
  induction l with
  | nil => intro n d h; simp at h
  | cons a t ih =>
    intro n d h
    cases n with
    | zero => rfl
    | succ m =>
      simp only [List.getD_cons_succ, List.set_cons_succ, List.cons.injEq, true_and]
      exact ih m d (by simpa using h)

theorem getD_map_lt {α β : Type} (g : α → β) :
    ∀ (l : List α) (n : Nat) (d1 : β) (d2 : α), n < l.length →
      (l.map g).getD n d1 = g (l.getD n d2) := by
  intro l
  induction l with
  | nil => intro n d1 d2 h; simp at h
  | cons a t ih =>
    intro n d1 d2 h
    cases n with
    | zero => rfl
    | succ m =>
      simp only [List.map_cons, List.getD_cons_succ]
      exact ih m d1 d2 (by simpa using h)

theorem getD_set_ne {α : Type} : ∀ (l : List α) (n i : Nat) (a : α) (d : α),
    i ≠ n → (l.set n a).getD i d = l.getD i d := by
  intro l
  induction l with
  | nil => intro n i a d _; simp
  | cons x t ih =>
    intro n i a d hne
    cases n with
    | zero =>
      cases i with
      | zero => exact absurd rfl hne
      | succ j => rfl
    | succ m =>
      cases i with
      | zero => rfl
      | succ j =>
        simp only [List.set_cons_succ, List.getD_cons_succ]
        exact ih m j a d (by omega)

theorem getD_set_self {α : Type} : ∀ (l : List α) (n : Nat) (a : α) (d : α),
    n < l.length → (l.set n a).getD n d = a := by
  intro l
  induction l with
  | nil => intro n a d h; simp at h
  | cons x t ih =>
    intro n a d h
    cases n with
    | zero => rfl
    | succ m =>
      simp only [List.set_cons_succ, List.getD_cons_succ]
      exact ih m a d (by simpa using h)

/-- C3 (amended).  For every non-empty union that resolves successfully,
every field appears in the layout with its own resolved size and
alignment; all paddings are zero except possibly the *last* entry's,
which carries the whole (nonnegative) union trailing padding — whatever
the position of the largest-size field. -/
theorem c3_union_last_padding {cat ctx fuel name agg ms M meta}
    (hfind : ctxFind ctx name = some agg)
    (hkind : agg.Kind = .unionKind)
    (hne : agg.Fields ≠ [])
    (hfp : firstPass (ResolveMeta cat ctx fuel) cat ctx agg.Fields = .ok (ms, M))
    (hok : ResolveMeta cat ctx (fuel + 1) name = .ok meta) :
    ∃ ls, meta.Layout = some ls ∧
      ls.length = agg.Fields.length ∧
      layFields ls = agg.Fields ∧
      laySizes ls = ms.map (fun m => m.Size) ∧
      layAligns ls = ms.map (fun m => m.Alignment) ∧
      (∀ i, i + 1 < ls.length → (aget ls i).padding = 0) ∧
      (aget ls (ls.length - 1)).padding =
        unionPadding M (listMaxNeg1 (ms.map (fun m => m.Size))) ∧
      0 ≤ (aget ls (ls.length - 1)).padding := by
  obtain ⟨ms', M', hfp', hru⟩ := ResolveMeta_union_ok hfind hkind hok
  have hms : ms = ms' ∧ M = M' := by
    have := hfp.symm.trans hfp'
    simp only [Except.ok.injEq, Prod.mk.injEq] at this
    exact this
  obtain ⟨hms1, hms2⟩ := hms
  subst hms1
  subst hms2
  obtain ⟨r, padding, n, hr, hpad, hn, hmeta⟩ := resolveUnion_ok hru
  obtain ⟨hM0, hrv⟩ := goMod_ok hr
  obtain ⟨-, hpv⟩ := goMod_ok hpad
  have hlen : ms.length = agg.Fields.length := firstPass_length hfp'
  have hfold := unionFold_eq_listMaxNeg1 ms
  have hpadval : padding = unionPadding M (listMaxNeg1 (ms.map (fun m => m.Size))) := by
    rw [hpv, hrv, hfold, unionPadding]
  have hMpos : 0 < M := by
    have h0 := listMax0_nonneg (ms.map (fun m => m.Alignment))
    rw [← firstPass_max hfp'] at h0
    omega
  have hpadnn : 0 ≤ padding := by
    rw [hpv, hrv]
    have hlt : (ms.foldl (fun (acc : Int) (m : AggregateMeta) =>
        if m.Size > acc then m.Size else acc) (-1)).tmod M < M :=
      Int.tmod_lt_of_pos _ hMpos
    exact Int.tmod_nonneg _ (by omega)
  set layouts := (agg.Fields.zip ms).map unionEntry with hlay
  have hzlen : layouts.length = ms.length := by
    rw [hlay, List.length_map, List.length_zip, hlen]
    omega
  have hnlt : n < layouts.length := by omega
  have hziplen : (agg.Fields.zip ms).length = layouts.length := by
    rw [hlay, List.length_map]
  have hproj : ∀ {β : Type} (g : Layout → β) (gp : (Field × AggregateMeta) → β),
      (∀ p, g (unionEntry p) = gp p) →
      g (withPadding (aget layouts n) padding) = g (aget layouts n) →
      (layouts.set n (withPadding (aget layouts n) padding)).map g =
        (agg.Fields.zip ms).map gp := by
    intro β g gp hg hfix
    rw [List.map_set, hfix]
    have hgd : g (aget layouts n) = (layouts.map g).getD n (g default) := by
      rw [aget, getD_map_lt g layouts n (g default) default hnlt]
    rw [hgd, set_getD_self _ _ _ (by rw [List.length_map]; exact hnlt), hlay,
      List.map_map]
    congr 1
    funext p
    exact hg p
  refine ⟨_, by rw [hmeta], ?_, ?_, ?_, ?_, ?_, ?_, ?_⟩
  · rw [List.length_set, hzlen, hlen]
  · rw [layFields, hproj (fun L => L.field) (fun p => p.1) (fun p => rfl) rfl]
    exact List.map_fst_zip _ _ (le_of_eq hlen.symm)
  · rw [laySizes, hproj (fun L => L.size) (fun p => p.2.Size) (fun p => rfl) rfl]
    conv_rhs => rw [← List.map_snd_zip agg.Fields ms (le_of_eq hlen)]
    rw [List.map_map]
    rfl
  · rw [layAligns,
      hproj (fun L => L.alignment) (fun p => p.2.Alignment) (fun p => rfl) rfl]
    conv_rhs => rw [← List.map_snd_zip agg.Fields ms (le_of_eq hlen)]
    rw [List.map_map]
    rfl
  · intro i hi
    rw [List.length_set] at hi
    have hin : i ≠ n := by omega
    have hizip : i < (agg.Fields.zip ms).length := by omega
    rw [aget, getD_set_ne _ _ _ _ _ hin, hlay,
      getD_map_lt _ _ _ _ (default, default) hizip]
    rfl
  · have hlast : (layouts.set n (withPadding (aget layouts n) padding)).length - 1
        = n := by
      rw [List.length_set]
      omega
    rw [hlast, aget, getD_set_self _ _ _ _ hnlt]
    exact hpadval
  · have hlast : (layouts.set n (withPadding (aget layouts n) padding)).length - 1
        = n := by
      rw [List.length_set]
      omega
    rw [hlast, aget, getD_set_self _ _ _ _ hnlt]
    exact hpadnn

/-- Counterexample to C3 as literally stated: in
`union u2 { char arr[9]; double b; }` the member with the largest size is
`arr` (size `9 > 8`), yet the union's trailing padding `7` is attached to
the *last* layout entry (`b`, size `8`), while `arr` carries none. -/
theorem c3_counterexample :
    ∃ meta ls, ResolveMeta defaultCat exCtxU2 2 "union u2" = .ok meta ∧
      meta.Layout = some ls ∧
      laySizes ls = [9, 8] ∧
      layPads ls = [0, 7] ∧
      (9 : Int) > 8 ∧
      (aget ls 0).padding = 0 ∧
      (aget ls 1).padding = 7 := by
  refine ⟨_, _, rfl, rfl, rfl, rfl, by decide, rfl, rfl⟩

/-- Witness for C3 at a concrete input: `union un { double d; float f;
unsigned char uc; }` under the default catalog satisfies every hypothesis
of the C3 theorem, and its layout has zero padding on every entry except
the last one, which carries the whole trailing padding. -/
theorem c3_witness :
    ctxFind exCtxUn "union un" = some exAggUn ∧
    exAggUn.Kind = .unionKind ∧
    exAggUn.Fields ≠ [] ∧
    firstPass (ResolveMeta defaultCat exCtxUn 1) defaultCat exCtxUn exAggUn.Fields
      = .ok ([⟨8, 8, none⟩, ⟨4, 4, none⟩, ⟨1, 1, none⟩], 8) ∧
    ∃ meta, ResolveMeta defaultCat exCtxUn 2 "union un" = .ok meta ∧
      ∃ ls, meta.Layout = some ls ∧
        ls.length = exAggUn.Fields.length ∧
        layFields ls = exAggUn.Fields ∧
        laySizes ls = ([⟨8, 8, none⟩, ⟨4, 4, none⟩, ⟨1, 1, none⟩] : List AggregateMeta).map
          (fun m => m.Size) ∧
        layAligns ls = ([⟨8, 8, none⟩, ⟨4, 4, none⟩, ⟨1, 1, none⟩] : List AggregateMeta).map
          (fun m => m.Alignment) ∧
        (∀ i, i + 1 < ls.length → (aget ls i).padding = 0) ∧
        (aget ls (ls.length - 1)).padding =
          unionPadding 8 (listMaxNeg1 (([⟨8, 8, none⟩, ⟨4, 4, none⟩,
            ⟨1, 1, none⟩] : List AggregateMeta).map (fun m => m.Size))) ∧
        0 ≤ (aget ls (ls.length - 1)).padding := by
  refine ⟨rfl, rfl, List.cons_ne_nil _ _, rfl, _, rfl, ?_⟩
  exact @c3_union_last_padding defaultCat exCtxUn 1 "union un" exAggUn
    [⟨8, 8, none⟩, ⟨4, 4, none⟩, ⟨1, 1, none⟩] 8 _
    rfl rfl (List.cons_ne_nil _ _) rfl rfl

/-! ## Symbol-error shape (C4, C10) -/

theorem goMod_err {x m : Int} {f : Fault} (h : goMod x m = .error f) :
    f = .crash := by
  rw [goMod] at h
  split at h
  · simp only [Except.error.injEq] at h
    exact h.symm
  · exact absurd h (by simp)

theorem secondPass_no_err {M : Int} :
    ∀ {l : List (Field × AggregateMeta)} {t : Int} {f : Fault},
      secondPass M l t = .error f → f = .crash := by
  intro l
  induction l with
  | nil => intro t f h; exact absurd h (by simp [secondPass])
  | cons p rest ih =>
    intro t f h
    obtain ⟨field, curr⟩ := p
    rw [secondPass] at h
    split at h
    · rename_i fl hg
      simp only [Except.error.injEq] at h
      subst h
      exact goMod_err hg
    · rename_i r hg
      split at h
      · rename_i fl hg2
        simp only [Except.error.injEq] at h
        subst h
        exact goMod_err hg2
      · rename_i pad hg2
        split at h
        · rename_i fl hrec
          simp only [Except.error.injEq] at h
          subst h
          exact ih hrec
        · exact absurd h (by simp)

theorem resolveUnion_no_err {agg : Aggregate} {ms : List AggregateMeta}
    {mx : Int} {f : Fault} (h : resolveUnion agg ms mx = .error f) :
    f = .crash := by
  simp only [resolveUnion] at h
  split at h
  · rename_i fl hg
    simp only [Except.error.injEq] at h
    subst h
    exact goMod_err hg
  · rename_i r hg
    split at h
    · rename_i fl hg2
      simp only [Except.error.injEq] at h
      subst h
      exact goMod_err hg2
    · rename_i pad hg2
      split at h
      · simp only [Except.error.injEq] at h
        exact h.symm
      · exact absurd h (by simp)

theorem resolveAggregate_err_shape {resolve : String → Res AggregateMeta}
    {cat : Cat} {ctx : Ctx} {t : String} {e : SymErr}
    (hres : ∀ n e', resolve n = .error (.err e') → SymShape cat ctx e')
    (hcat : tmLookup cat.tm t = none)
    (h : resolveAggregate resolve ctx t = .error (.err e)) :
    SymShape cat ctx e := by
  rw [resolveAggregate] at h
  split at h
  · rename_i hfind
    simp only [Except.error.injEq, Fault.err.injEq] at h
    subst h
    exact SymShape.inner t hcat hfind
  · rename_i fAgg hfind
    exact hres _ _ h

theorem handleValueType_err_shape {resolve : String → Res AggregateMeta}
    {cat : Cat} {ctx : Ctx} {field : Field} {e : SymErr}
    (hres : ∀ n e', resolve n = .error (.err e') → SymShape cat ctx e')
    (h : handleValueType resolve cat ctx field = .error (.err e)) :
    SymShape cat ctx e := by
  simp only [handleValueType] at h
  split at h
  · exact absurd h (by simp)
  · rename_i hcat
    split at h
    · rename_i fl hra
      simp only [Except.error.injEq] at h
      subst h
      exact resolveAggregate_err_shape hres hcat hra
    · split at h <;> exact absurd h (by simp)

theorem fieldStep_err_shape {resolve : String → Res AggregateMeta}
    {cat : Cat} {ctx : Ctx} {field : Field} {e : SymErr}
    (hres : ∀ n e', resolve n = .error (.err e') → SymShape cat ctx e')
    (h : fieldStep resolve cat ctx field = .error (.err e)) :
    SymShape cat ctx e := by
  cases field with
  | basic qs t n => exact handleValueType_err_shape hres h
  | pointer qs t n pq => exact absurd h (by simp [fieldStep])
  | array qs t n el => exact handleValueType_err_shape hres h
  | funcPointer r n args => exact absurd h (by simp [fieldStep])
  | enumEntry n => exact absurd h (by simp [fieldStep])

theorem firstPass_err_shape {resolve : String → Res AggregateMeta}
    {cat : Cat} {ctx : Ctx}
    (hres : ∀ n e', resolve n = .error (.err e') → SymShape cat ctx e') :
    ∀ {fields : List Field} {e : SymErr},
      firstPass resolve cat ctx fields = .error (.err e) → SymShape cat ctx e := by
  intro fields
  induction fields with
  | nil => intro e h; exact absurd h (by simp [firstPass])
  | cons f rest ih =>
    intro e h
    rw [firstPass] at h
    split at h
    · rename_i fl hstep
      simp only [Except.error.injEq] at h
      subst h
      exact fieldStep_err_shape hres hstep
    · rename_i curr hstep
      split at h
      · rename_i fl hrest
        simp only [Except.error.injEq] at h
        subst h
        exact ih hrest
      · exact absurd h (by simp)

/-- Every non-crash error returned by the resolver is a chain of
`name %s:` wraps around a missing top-level symbol or a missing inner
type. -/
theorem ResolveMeta_err_shape {cat : Cat} {ctx : Ctx} :
    ∀ {fuel : Nat} {name : String} {e : SymErr},
      ResolveMeta cat ctx fuel name = .error (.err e) → SymShape cat ctx e := by
  intro fuel
  induction fuel with
  | zero => intro name e h; exact absurd h (by simp [ResolveMeta])
  | succ f ih =>
    intro name e h
    rw [ResolveMeta] at h
    split at h
    · rename_i hfind
      simp only [Except.error.injEq, Fault.err.injEq] at h
      subst h
      exact SymShape.top name hfind
    · rename_i agg hfind
      split at h
      · rename_i fl hfp
        cases fl with
        | crash => simp [wrapName] at h
        | err e' =>
          simp only [wrapName, Except.error.injEq, Fault.err.injEq] at h
          subst h
          exact SymShape.wrap name agg e' hfind
            (firstPass_err_shape (fun n e'' hh => ih hh) hfp)
      · rename_i p ms M hfp
        split at h
        · exact absurd h (by simp)
        · split at h
          · exact absurd (resolveUnion_no_err h) (by simp)
          · split at h
            · rename_i fl hsp
              simp only [Except.error.injEq] at h
              subst h
              exact absurd (secondPass_no_err hsp) (by simp)
            · exact absurd h (by simp)

theorem handleValueType_ok_presence {resolve : String → Res AggregateMeta}
    {cat : Cat} {ctx : Ctx} {field : Field} {m : AggregateMeta}
    (h : handleValueType resolve cat ctx field = .ok m) :
    tmLookup cat.tm (Field.unqualifiedType field) ≠ none ∨
    ctxFind ctx (Field.unqualifiedType field) ≠ none := by
  simp only [handleValueType] at h
  split at h
  · rename_i fMeta hcat
    exact Or.inl (by simp [hcat])
  · rename_i hcat
    split at h
    · exact absurd h (by simp)
    · rename_i subMeta hra
      right
      rw [resolveAggregate] at hra
      split at hra
      · exact absurd hra (by simp)
      · rename_i fAgg hfind
        simp [hfind]

theorem fieldStep_ok_presence {resolve : String → Res AggregateMeta}
    {cat : Cat} {ctx : Ctx} {f : Field} {m : AggregateMeta}
    (hval : isValueField f = true)
    (h : fieldStep resolve cat ctx f = .ok m) :
    tmLookup cat.tm (Field.unqualifiedType f) ≠ none ∨
    ctxFind ctx (Field.unqualifiedType f) ≠ none := by
  cases f with
  | basic qs t n => exact handleValueType_ok_presence h
  | pointer qs t n pq => simp [isValueField] at hval
  | array qs t n el => exact handleValueType_ok_presence h
  | funcPointer r n args => simp [isValueField] at hval
  | enumEntry n => simp [isValueField] at hval

theorem firstPass_ok_presence {resolve : String → Res AggregateMeta}
    {cat : Cat} {ctx : Ctx} :
    ∀ {fields : List Field} {p : List AggregateMeta × Int},
      firstPass resolve cat ctx fields = .ok p →
      ∀ f ∈ fields, isValueField f = true →
        tmLookup cat.tm (Field.unqualifiedType f) ≠ none ∨
        ctxFind ctx (Field.unqualifiedType f) ≠ none := by
  intro fields
  induction fields with
  | nil => intro p _ f hf; simp at hf
  | cons g rest ih =>
    intro p h f hf hval
    obtain ⟨pm, pM⟩ := p
    obtain ⟨curr, restMetas, restMax, hstep, hrest, -, -⟩ := firstPass_cons_ok h
    rcases List.mem_cons.mp hf with heq | hmem
    · subst heq
      exact fieldStep_ok_presence hval hstep
    · exact ih hrest f hmem hval

theorem ResolveMeta_ok_fp {cat : Cat} {ctx : Ctx} {fuel : Nat} {name : String}
    {agg : Aggregate} {meta : AggregateMeta}
    (hfind : ctxFind ctx name = some agg)
    (hok : ResolveMeta cat ctx (fuel + 1) name = .ok meta) :
    ∃ p, firstPass (ResolveMeta cat ctx fuel) cat ctx agg.Fields = .ok p := by
  simp only [ResolveMeta, hfind] at hok
  split at hok
  · exact absurd hok (by simp)
  · rename_i p ms M hfp
    exact ⟨(ms, M), hfp⟩

/-- C4 (amended).  Three facts replace the spec's iff.  Soundness: every
symbol error the resolver returns is a chain of `name %s:` wraps (each
naming an aggregate that was found) ending either in a top-level name
absent from the index or in an inner type name absent from both the
catalog and the index.  Completeness holds for the requested name: a
name absent from the index fails with exactly that symbol error.  For
field types it holds only in the weaker form: on *success* every
top-level basic or array field's unqualified type is present in the
catalog or the index (pointer and function-pointer fields are never
looked up at all, see the counterexample). -/
theorem c4_symbol_not_found {cat : Cat} {ctx : Ctx} {fuel : Nat} {name : String} :
    (∀ e, ResolveMeta cat ctx fuel name = .error (.err e) → SymShape cat ctx e) ∧
    (ctxFind ctx name = none →
      ResolveMeta cat ctx (fuel + 1) name = .error (.err (.symbolTop name))) ∧
    (∀ agg meta, ctxFind ctx name = some agg →
      ResolveMeta cat ctx (fuel + 1) name = .ok meta →
      ∀ f ∈ agg.Fields, isValueField f = true →
        tmLookup cat.tm (Field.unqualifiedType f) ≠ none ∨
        ctxFind ctx (Field.unqualifiedType f) ≠ none) := by
  refine ⟨fun e h => ResolveMeta_err_shape h, fun hnone => ?_,
    fun agg meta hfind hok => ?_⟩
  · simp only [ResolveMeta, hnone]
  · obtain ⟨p, hfp⟩ := ResolveMeta_ok_fp hfind hok
    exact firstPass_ok_presence hfp

/-- Counterexample to C4 as stated: in `struct p { undefined_t *p;
void (*fp)(int); }` the field type `undefined_t` is absent from both the
catalog and the index, yet resolution succeeds (pointer fields take the
pointer size and alignment without any lookup), refuting the claimed
"absent type implies failure" direction. -/
theorem c4_counterexample :
    Field.unqualifiedType (.pointer [] "undefined_t" "p" []) = "undefined_t" ∧
    tmLookup defaultCat.tm "undefined_t" = none ∧
    ctxFind exCtxPtr "undefined_t" = none ∧
    ∃ meta, ResolveMeta defaultCat exCtxPtr 2 "struct p" = .ok meta ∧
      meta.Size = 16 ∧ meta.Alignment = 8 := by
  exact ⟨rfl, rfl, rfl, _, rfl, rfl, rfl⟩

/-- Witness for C4 at concrete inputs: `struct o { missing_t m; }` fails
with the wrapped inner error (which has the proved shape), and a name
absent from the index fails with the top-level symbol error. -/
theorem c4_witness :
    ResolveMeta defaultCat exCtxMiss 2 "struct o" =
      .error (.err (.named "struct o" (.symbolInner "missing_t"))) ∧
    SymShape defaultCat exCtxMiss (.named "struct o" (.symbolInner "missing_t")) ∧
    ctxFind exCtxMiss "nosuch" = none ∧
    ResolveMeta defaultCat exCtxMiss 2 "nosuch" =
      .error (.err (.symbolTop "nosuch")) := by
  refine ⟨rfl, ?_, rfl, ?_⟩
  · exact (@c4_symbol_not_found defaultCat exCtxMiss 2 "struct o").1 _ rfl
  · exact (@c4_symbol_not_found defaultCat exCtxMiss 1 "nosuch").2.1 rfl

/-! ## The anonymous-typedef failure (C10) -/

theorem firstPass_append_error {resolve : String → Res AggregateMeta}
    {cat : Cat} {ctx : Ctx} :
    ∀ {pre : List Field} {p} {rest : List Field} {f : Fault},
      firstPass resolve cat ctx pre = .ok p →
      firstPass resolve cat ctx rest = .error f →
      firstPass resolve cat ctx (pre ++ rest) = .error f := by
  intro pre
  induction pre with
  | nil => intro p rest f h1 h2; simpa using h2
  | cons g t ih =>
    intro p rest f h1 h2
    obtain ⟨pm, pM⟩ := p
    obtain ⟨curr, restMetas, restMax, hstep, hrest, -, -⟩ := firstPass_cons_ok h1
    rw [List.cons_append, firstPass, hstep, ih hrest h2]

/-- A `firstPass` failure is wrapped with the requested name. -/
theorem ResolveMeta_fp_error {cat : Cat} {ctx : Ctx} {fuel : Nat} {name : String}
    {agg : Aggregate} {f : Fault}
    (hfind : ctxFind ctx name = some agg)
    (hfp : firstPass (ResolveMeta cat ctx fuel) cat ctx agg.Fields = .error f) :
    ResolveMeta cat ctx (fuel + 1) name = .error (wrapName name f) := by
  simp only [ResolveMeta, hfind]
  split
  · rename_i fl hfp2
    have hfl : f = fl := by
      have h12 := hfp.symm.trans hfp2
      simpa using h12
    rw [hfl]
  · rename_i p ms M hfp2
    have h12 := hfp.symm.trans hfp2
    exact absurd h12 (by simp)

/-- C10.  If the index maps the alias of an anonymous aggregate (empty
recorded `Name`, and the empty string is not a key of the index), then
resolving an aggregate containing a basic field of the aliased type —
absent from the catalog, present in the index — fails with
`name <outer>: cannot find symbol: <empty>`: the recursive step
re-resolves through the (empty) recorded tag name, not through the alias
it just looked up. -/
theorem c10_anonymous_typedef {cat : Cat} {ctx : Ctx} {fuel : Nat}
    {name : String} {outer inner : Aggregate} {pre rest : List Field}
    {qs : List String} {ty fname : String} {p : List AggregateMeta × Int}
    (hfind : ctxFind ctx name = some outer)
    (hfields : outer.Fields = pre ++ .basic qs ty fname :: rest)
    (hcat : tmLookup cat.tm (Field.unqualifiedType (.basic qs ty fname)) = none)
    (hinner : ctxFind ctx (Field.unqualifiedType (.basic qs ty fname)) = some inner)
    (hanon : inner.Name = "")
    (hempty : ctxFind ctx "" = none)
    (hpre : firstPass (ResolveMeta cat ctx (fuel + 1)) cat ctx pre = .ok p) :
    ResolveMeta cat ctx (fuel + 2) name =
      .error (.err (.named name (.symbolTop ""))) := by
  have hstep : fieldStep (ResolveMeta cat ctx (fuel + 1)) cat ctx
      (.basic qs ty fname) = .error (.err (.symbolTop "")) := by
    show handleValueType (ResolveMeta cat ctx (fuel + 1)) cat ctx
      (.basic qs ty fname) = .error (.err (.symbolTop ""))
    simp only [handleValueType, hcat, resolveAggregate, hinner, hanon,
      ResolveMeta, hempty]
  have hrest : firstPass (ResolveMeta cat ctx (fuel + 1)) cat ctx
      (.basic qs ty fname :: rest) = .error (.err (.symbolTop "")) := by
    rw [firstPass, hstep]
  have hall := firstPass_append_error hpre hrest
  rw [← hfields] at hall
  exact ResolveMeta_fp_error hfind hall

/-- Witness for C10 at the concrete input
`typedef struct { short a; } S; struct outer { S s; }`: resolving
`struct outer` fails with `name struct outer: cannot find symbol: ` even
though `S` is a key of the index. -/
theorem c10_witness :
    ctxFind exCtxAnon "S" = some exAggAnon ∧
    exAggAnon.Name = "" ∧
    ResolveMeta defaultCat exCtxAnon 3 "struct outer" =
      .error (.err (.named "struct outer" (.symbolTop ""))) := by
  refine ⟨rfl, rfl, ?_⟩
  exact @c10_anonymous_typedef defaultCat exCtxAnon 1 "struct outer"
    exAggOuter exAggAnon [] [] [] "S" "s" ([], 0)
    rfl rfl rfl rfl rfl rfl rfl

/-! ## Faults and error values (C9) -/

/-- C9 (amended).  Missing top-level symbols are reported as error
values, but two inputs abort with modelled runtime panics rather than
returning errors: resolving a union with zero fields (division by zero,
then index `len - 1 = -1`), and optimizing a name absent from the index
(nil-pointer dereference); no `EmptyAggregate`-style error exists. -/
theorem c9_faults :
    isCrashR (ResolveMeta defaultCat exCtxEmptyU 2 "union e") = true ∧
    isCrashR (Optimize defaultCat 2 exCtxEmptyU "nope" default) = true ∧
    ResolveMeta defaultCat exCtxEmptyU 2 "nope" =
      .error (.err (.symbolTop "nope")) ∧
    isCrashR (ResolveMeta defaultCat exCtxEmptyU 2 "nope") = false := by
  exact ⟨rfl, rfl, rfl, rfl⟩

/-- Counterexample to C9 as stated: the empty union makes the resolver
abort with a runtime panic (not an explicit error value), and optimizing
a name absent from the index also aborts with a panic. -/
theorem c9_counterexample :
    ResolveMeta defaultCat exCtxEmptyU 2 "union e" = .error .crash ∧
    Optimize defaultCat 2 exCtxEmptyU "nope" default = .error .crash := by
  exact ⟨rfl, rfl⟩

/-! ## Setter truncation (C7) and the dead zero check (C8) -/

/-- C7: the per-category setters and hence the presets update only the
first two spellings of each multi-spelling category: every `Set...` loop
iterates `for idx := range charTypes` (length 2).  After the AVR preset,
`short`/`short int` hold the new `{1, 2}` but `signed short` and
`unsigned short` keep the 64-bit defaults, `signed int` keeps `{4, 4}`,
and no `long`/`long long` spelling past the second is touched. -/
theorem c7_setter_truncation :
    tmLookup exCatAvr.tm "char" = some ⟨1, 1⟩ ∧
    tmLookup exCatAvr.tm "unsigned char" = some ⟨1, 1⟩ ∧
    tmLookup exCatAvr.tm "short" = some ⟨1, 2⟩ ∧
    tmLookup exCatAvr.tm "short int" = some ⟨1, 2⟩ ∧
    tmLookup exCatAvr.tm "signed short" = some ⟨2, 2⟩ ∧
    tmLookup exCatAvr.tm "unsigned short" = some ⟨2, 2⟩ ∧
    tmLookup exCatAvr.tm "signed int" = some ⟨4, 4⟩ ∧
    tmLookup exCatAvr.tm "unsigned long int" = some ⟨8, 8⟩ ∧
    tmLookup exCatAvr.tm "unsigned long long" = some ⟨8, 8⟩ := by
  exact ⟨rfl, rfl, rfl, rfl, rfl, rfl, rfl, rfl, rfl⟩

theorem hsaoAux_no_value_err :
    ∀ (flags : List String) (cat : Cat) (idx : Nat),
      isValueErr (hsaoAux cat flags idx) = false := by
  intro flags
  induction flags with
  | nil => intro cat idx; rfl
  | cons flag rest ih =>
    intro cat idx
    rw [hsaoAux]
    split
    · exact ih cat (idx + 1)
    · dsimp only
      split
      · rfl
      · split
        · exact ih _ (idx + 1)
        · rfl

/-- C8: `handleSizeAlignOptions` performs no value check.  Passing `0,0`
for the `char` category succeeds and writes `{0, 0}` into the catalog,
and no flag vector whatsoever can produce the declared (dead)
`ErrSizeAlignValue`. -/
theorem c8_zero_accepted :
    handleSizeAlignOptions defaultCat exFlagsZero =
      .ok (SetCharAlignSize defaultCat 0 0) ∧
    tmLookup (SetCharAlignSize defaultCat 0 0).tm "char" = some ⟨0, 0⟩ ∧
    tmLookup (SetCharAlignSize defaultCat 0 0).tm "unsigned char" = some ⟨0, 0⟩ ∧
    (∀ (cat : Cat) (flags : List String),
      isValueErr (handleSizeAlignOptions cat flags) = false) := by
  refine ⟨?_, rfl, rfl, fun cat flags => hsaoAux_no_value_err flags cat 0⟩
  rfl

/-! ## `slices.SortFunc` permutes its input (C5, C6) -/

theorem consSwap_perm {α : Type} [Inhabited α] :
    ∀ (t : List α) (j : Nat) (a : α), j < t.length →
      List.Perm (t.getD j default :: t.set j a) (a :: t) := by
  intro t
  induction t with
  | nil => intro j a h; simp at h
  | cons b t' ih =>
    intro j a h
    cases j with
    | zero =>
      simp only [List.getD_cons_zero, List.set_cons_zero]
      exact List.Perm.swap a b t'
    | succ m =>
      simp only [List.getD_cons_succ, List.set_cons_succ]
      have h1 : List.Perm (t'.getD m default :: b :: t'.set m a)
          (b :: t'.getD m default :: t'.set m a) := List.Perm.swap _ _ _
      have h2 := List.Perm.cons b (ih m a (by simpa using h))
      have h3 : List.Perm (b :: a :: t') (a :: b :: t') := List.Perm.swap _ _ _
      exact (h1.trans h2).trans h3

theorem setSwap_perm {α : Type} [Inhabited α] :
    ∀ (l : List α) (i j : Nat), i < l.length → j < l.length →
      List.Perm ((l.set i (aget l j)).set j (aget l i)) l := by
  intro l
  induction l with
  | nil => intro i j hi _; simp at hi
  | cons a t ih =>
    intro i j hi hj
    cases i with
    | zero =>
      cases j with
      | zero => simp [aget]
      | succ m =>
        simp only [aget, List.getD_cons_succ, List.getD_cons_zero,
          List.set_cons_zero, List.set_cons_succ]
        exact consSwap_perm t m a (by simpa using hj)
    | succ n =>
      cases j with
      | zero =>
        simp only [aget, List.getD_cons_succ, List.getD_cons_zero,
          List.set_cons_zero, List.set_cons_succ]
        exact consSwap_perm t n a (by simpa using hi)
      | succ m =>
        simp only [aget, List.getD_cons_succ, List.set_cons_succ]
        exact List.Perm.cons a (ih n m (by simpa using hi) (by simpa using hj))

theorem lswap_perm {α : Type} [Inhabited α] (l : List α) (i j : Nat) :
    List.Perm (lswap l i j) l := by
  rw [lswap]
  split
  · rename_i h
    exact setSwap_perm l i j h.1 h.2
  · exact List.Perm.refl l

theorem insInner_perm {α : Type} [Inhabited α] (cmp : α → α → Int) :
    ∀ (j : Nat) (data : List α) (a : Nat),
      List.Perm (insInner cmp data a j) data := by
  intro j
  induction j with
  | zero => intro data a; exact List.Perm.refl data
  | succ m ih =>
    intro data a
    rw [insInner]
    split
    · exact (ih _ a).trans (lswap_perm data (m + 1) m)
    · exact List.Perm.refl data

theorem insOuter_perm {α : Type} [Inhabited α] (cmp : α → α → Int) :
    ∀ (fuel : Nat) (data : List α) (a b i : Nat),
      List.Perm (insOuter cmp fuel data a b i) data := by
  intro fuel
  induction fuel with
  | zero => intro data a b i; exact List.Perm.refl data
  | succ f ih =>
    intro data a b i
    rw [insOuter]
    split
    · exact (ih _ a b (i + 1)).trans (insInner_perm cmp i data a)
    · exact List.Perm.refl data

theorem insertionSortCmpFunc_perm {α : Type} [Inhabited α] (cmp : α → α → Int)
    (data : List α) (a b : Nat) :
    List.Perm (insertionSortCmpFunc cmp data a b) data :=
  insOuter_perm cmp (b + 1) data a b (a + 1)

theorem siftDownCmpFunc_perm {α : Type} [Inhabited α] (cmp : α → α → Int) :
    ∀ (fuel : Nat) (data : List α) (lo hi first : Nat),
      List.Perm (siftDownCmpFunc cmp fuel data lo hi first) data := by
  intro fuel
  induction fuel with
  | zero => intro data lo hi first; exact List.Perm.refl data
  | succ f ih =>
    intro data lo hi first
    rw [siftDownCmpFunc]
    split
    · split
      · split
        · exact (ih _ (2 * lo + 2) hi first).trans (lswap_perm data _ _)
        · exact List.Perm.refl data
      · split
        · exact (ih _ (2 * lo + 1) hi first).trans (lswap_perm data _ _)
        · exact List.Perm.refl data
    · exact List.Perm.refl data

theorem heapBuild_perm {α : Type} [Inhabited α] (cmp : α → α → Int)
    (hi first : Nat) :
    ∀ (i : Nat) (data : List α), List.Perm (heapBuild cmp data hi first i) data := by
  intro i
  induction i with
  | zero => intro data; exact siftDownCmpFunc_perm cmp (hi + 1) data 0 hi first
  | succ m ih =>
    intro data
    exact (ih _).trans (siftDownCmpFunc_perm cmp (hi + 1) data (m + 1) hi first)

theorem heapPop_perm {α : Type} [Inhabited α] (cmp : α → α → Int) (first : Nat) :
    ∀ (i : Nat) (data : List α), List.Perm (heapPop cmp data first i) data := by
  intro i
  induction i with
  | zero =>
    intro data
    exact (siftDownCmpFunc_perm cmp 1 _ 0 0 first).trans (lswap_perm data first first)
  | succ m ih =>
    intro data
    exact ((ih _).trans (siftDownCmpFunc_perm cmp (m + 2) _ 0 (m + 1) first)).trans
      (lswap_perm data first (first + (m + 1)))

theorem heapSortCmpFunc_perm {α : Type} [Inhabited α] (cmp : α → α → Int)
    (data : List α) (a b : Nat) :
    List.Perm (heapSortCmpFunc cmp data a b) data := by
  rw [heapSortCmpFunc]
  split
  · exact List.Perm.refl data
  · exact (heapPop_perm cmp a (b - a - 1) _).trans
      (heapBuild_perm cmp (b - a) a ((b - a - 1) / 2) data)

theorem revRange_perm {α : Type} [Inhabited α] :
    ∀ (fuel : Nat) (data : List α) (i j : Nat),
      List.Perm (revRange fuel data i j) data := by
  intro fuel
  induction fuel with
  | zero => intro data i j; exact List.Perm.refl data
  | succ f ih =>
    intro data i j
    rw [revRange]
    split
    · exact (ih _ (i + 1) (j - 1)).trans (lswap_perm data i j)
    · exact List.Perm.refl data

theorem reverseRangeCmpFunc_perm {α : Type} [Inhabited α] (data : List α)
    (a b : Nat) : List.Perm (reverseRangeCmpFunc data a b) data :=
  revRange_perm b data a (b - 1)

theorem breakPatternsLoop_perm {α : Type} [Inhabited α]
    (a length idx modulus : Nat) :
    ∀ (n random : Nat) (data : List α),
      List.Perm (breakPatternsLoop data a length idx modulus random n) data := by
  intro n
  induction n with
  | zero => intro random data; exact List.Perm.refl data
  | succ m ih =>
    intro random data
    rw [breakPatternsLoop]
    exact (ih _ _).trans (lswap_perm data _ _)

theorem breakPatternsCmpFunc_perm {α : Type} [Inhabited α] (data : List α)
    (a b : Nat) : List.Perm (breakPatternsCmpFunc data a b) data := by
  rw [breakPatternsCmpFunc]
  dsimp only
  split
  · exact breakPatternsLoop_perm a (b - a) _ _ 3 (b - a) data
  · exact List.Perm.refl data

theorem shiftLeftLoop_perm {α : Type} [Inhabited α] (cmp : α → α → Int) :
    ∀ (j : Nat) (data : List α), List.Perm (shiftLeftLoop cmp data j) data := by
  intro j
  induction j with
  | zero => intro data; exact List.Perm.refl data
  | succ m ih =>
    intro data
    rw [shiftLeftLoop]
    split
    · exact (ih _).trans (lswap_perm data (m + 1) m)
    · exact List.Perm.refl data

theorem shiftRightLoop_perm {α : Type} [Inhabited α] (cmp : α → α → Int) :
    ∀ (fuel : Nat) (data : List α) (b j : Nat),
      List.Perm (shiftRightLoop cmp fuel data b j) data := by
  intro fuel
  induction fuel with
  | zero => intro data b j; exact List.Perm.refl data
  | succ f ih =>
    intro data b j
    rw [shiftRightLoop]
    split
    · exact (ih _ b (j + 1)).trans (lswap_perm data j (j - 1))
    · exact List.Perm.refl data

theorem partialInsLoop_perm {α : Type} [Inhabited α] (cmp : α → α → Int) :
    ∀ (steps : Nat) (data : List α) (a b i : Nat),
      List.Perm (partialInsLoop cmp data a b i steps).1 data := by
  intro steps
  induction steps with
  | zero => intro data a b i; exact List.Perm.refl data
  | succ s ih =>
    intro data a b i
    rw [partialInsLoop]
    dsimp only
    split
    · exact List.Perm.refl data
    · split
      · exact List.Perm.refl data
      · refine (ih _ a b _).trans ?_
        split
        · refine (shiftRightLoop_perm cmp (b + 1) _ b _).trans ?_
          split
          · exact (shiftLeftLoop_perm cmp _ _).trans (lswap_perm _ _ _)
          · exact lswap_perm _ _ _
        · split
          · exact (shiftLeftLoop_perm cmp _ _).trans (lswap_perm _ _ _)
          · exact lswap_perm _ _ _

theorem partialInsertionSortCmpFunc_perm {α : Type} [Inhabited α]
    (cmp : α → α → Int) (data : List α) (a b : Nat) :
    List.Perm (partialInsertionSortCmpFunc cmp data a b).1 data :=
  partialInsLoop_perm cmp 5 data a b (a + 1)

theorem partitionLoop_perm {α : Type} [Inhabited α] (cmp : α → α → Int) :
    ∀ (fuel : Nat) (data : List α) (a i j : Nat),
      List.Perm (partitionLoop cmp fuel data a i j).1 data := by
  intro fuel
  induction fuel with
  | zero => intro data a i j; exact List.Perm.refl data
  | succ f ih =>
    intro data a i j
    rw [partitionLoop]
    split
    · exact List.Perm.refl data
    · exact (ih _ a _ _).trans (lswap_perm data _ _)

theorem partitionCmpFunc_perm {α : Type} [Inhabited α] (cmp : α → α → Int)
    (data : List α) (a b pivot : Nat) :
    List.Perm (partitionCmpFunc cmp data a b pivot).1 data := by
  rw [partitionCmpFunc]
  dsimp only
  split
  · exact (lswap_perm _ _ _).trans (lswap_perm data a pivot)
  · refine ((lswap_perm _ _ _).trans ?_)
    refine (partitionLoop_perm cmp (b + 1) _ a _ _).trans ?_
    exact (lswap_perm _ _ _).trans (lswap_perm data a pivot)

theorem partitionEqualLoop_perm {α : Type} [Inhabited α] (cmp : α → α → Int) :
    ∀ (fuel : Nat) (data : List α) (a i j : Nat),
      List.Perm (partitionEqualLoop cmp fuel data a i j).1 data := by
  intro fuel
  induction fuel with
  | zero => intro data a i j; exact List.Perm.refl data
  | succ f ih =>
    intro data a i j
    rw [partitionEqualLoop]
    split
    · exact List.Perm.refl data
    · exact (ih _ a _ _).trans (lswap_perm data _ _)

theorem partitionEqualCmpFunc_perm {α : Type} [Inhabited α] (cmp : α → α → Int)
    (data : List α) (a b pivot : Nat) :
    List.Perm (partitionEqualCmpFunc cmp data a b pivot).1 data := by
  rw [partitionEqualCmpFunc]
  exact (partitionEqualLoop_perm cmp (b + 1) _ a (a + 1) (b - 1)).trans
    (lswap_perm data a pivot)

theorem pdqsortCmpFunc_perm {α : Type} [Inhabited α] (cmp : α → α → Int) :
    ∀ (fuel : Nat) (data : List α) (a b limit : Nat) (wb wp : Bool),
      List.Perm (pdqsortCmpFunc cmp fuel data a b limit wb wp) data := by
  intro fuel
  induction fuel with
  | zero => intro data a b limit wb wp; exact List.Perm.refl data
  | succ f ih =>
    intro data a b limit wb wp
    rw [pdqsortCmpFunc]
    lift_lets
    extract_lets d0 lim2 pj d1 pivot hint pres d2 pe pr d3 mid wasP lLen rLen
      wasB d4 d5
    have hd0 : List.Perm d0 data := by
      unfold d0
      split
      · exact List.Perm.refl data
      · exact breakPatternsCmpFunc_perm data a b
    have hd1 : List.Perm d1 d0 := by
      unfold d1
      split
      · exact reverseRangeCmpFunc_perm d0 a b
      · exact List.Perm.refl d0
    have hpres : List.Perm pres.1 d1 := by
      unfold pres
      split
      · exact partialInsertionSortCmpFunc_perm cmp d1 a b
      · exact List.Perm.refl d1
    have hd2 : List.Perm d2 data := by
      unfold d2
      exact (hpres.trans hd1).trans hd0
    have hpe : List.Perm pe.1 d2 := by
      unfold pe
      exact partitionEqualCmpFunc_perm cmp d2 a b pivot
    have hd3 : List.Perm d3 d2 := by
      unfold d3 pr
      exact partitionCmpFunc_perm cmp d2 a b pivot
    have hd4 : List.Perm d4 d3 := by
      unfold d4
      exact ih d3 a mid lim2 wasB wasP
    have hd5 : List.Perm d5 d3 := by
      unfold d5
      exact ih d3 (mid + 1) b lim2 wasB wasP
    split
    · exact insertionSortCmpFunc_perm cmp data a b
    · split
      · exact heapSortCmpFunc_perm cmp data a b
      · split
        · exact (hpres.trans hd1).trans hd0
        · split
          · exact (ih pe.1 pe.2 b lim2 wb wp).trans (hpe.trans hd2)
          · split
            · exact (ih d4 (mid + 1) b lim2 wasB wasP).trans
                ((hd4.trans hd3).trans hd2)
            · exact (ih d5 a mid lim2 wasB wasP).trans
                ((hd5.trans hd3).trans hd2)

theorem goSortFunc_perm {α : Type} [Inhabited α] (cmp : α → α → Int)
    (data : List α) : List.Perm (goSortFunc cmp data) data :=
  pdqsortCmpFunc_perm cmp _ data 0 data.length (goBitsLen data.length) true true

/-! ## The insertion-sort path is the spec's stable sort (C6) -/

theorem stableInsert_perm (x : Layout) :
    ∀ (P : List Layout), List.Perm (stableInsert x P) (x :: P) := by
  intro P
  induction P with
  | nil => exact List.Perm.refl [x]
  | cons y ys ih =>
    rw [stableInsert]
    split
    · exact List.Perm.refl _
    · exact (List.Perm.cons y ih).trans (List.Perm.swap x y ys)

theorem stableInsert_append_last {x q : Layout} (h : q.alignment < x.alignment) :
    ∀ (Q : List Layout), stableInsert x (Q ++ [q]) = stableInsert x Q ++ [q] := by
  intro Q
  induction Q with
  | nil => simp [stableInsert, h]
  | cons y Q' ih =>
    by_cases hc : y.alignment < x.alignment
    · simp [stableInsert, hc]
    · simp [stableInsert, hc, ih]

theorem stableInsert_all_ge {x : Layout} :
    ∀ {P : List Layout}, (∀ y ∈ P, ¬ y.alignment < x.alignment) →
      stableInsert x P = P ++ [x] := by
  intro P
  induction P with
  | nil => intro _; rfl
  | cons y ys ih =>
    intro h
    rw [stableInsert, if_neg (h y (List.mem_cons_self y ys)),
      ih (fun z hz => h z (List.mem_cons_of_mem y hz))]
    rfl

theorem stableInsert_sorted {x : Layout} :
    ∀ {P : List Layout}, sortedByAlignDesc P →
      sortedByAlignDesc (stableInsert x P) := by
  intro P
  induction P with
  | nil => intro _; simp [stableInsert, sortedByAlignDesc]
  | cons y ys ih =>
    intro h
    rw [sortedByAlignDesc, List.pairwise_cons] at h
    obtain ⟨hy, hys⟩ := h
    rw [stableInsert]
    split
    · rename_i hc
      rw [sortedByAlignDesc, List.pairwise_cons]
      refine ⟨?_, List.pairwise_cons.mpr ⟨hy, hys⟩⟩
      intro z hz
      rcases List.mem_cons.mp hz with hz | hz
      · subst hz
        exact le_of_lt hc
      · exact le_trans (hy z hz) (le_of_lt hc)
    · rename_i hc
      rw [sortedByAlignDesc, List.pairwise_cons]
      refine ⟨?_, ih hys⟩
      intro z hz
      have hz' := (stableInsert_perm x ys).mem_iff.mp hz
      rcases List.mem_cons.mp hz' with hz' | hz'
      · subst hz'
        omega
      · exact hy z hz'

theorem filter_none_of_lt {v : Int} :
    ∀ {P : List Layout}, (∀ z ∈ P, z.alignment < v) →
      P.filter (fun L => L.alignment == v) = [] := by
  intro P
  induction P with
  | nil => intro _; rfl
  | cons y ys ih =>
    intro h
    have hy := h y (List.mem_cons_self y ys)
    rw [List.filter_cons, if_neg (by simp only [beq_iff_eq]; omega),
      ih (fun z hz => h z (List.mem_cons_of_mem y hz))]

theorem stableInsert_filter (x : Layout) (v : Int) :
    ∀ {P : List Layout}, sortedByAlignDesc P →
      (stableInsert x P).filter (fun L => L.alignment == v) =
        P.filter (fun L => L.alignment == v) ++
          [x].filter (fun L => L.alignment == v) := by
  intro P
  induction P with
  | nil => intro _; rfl
  | cons y ys ih =>
    intro h
    rw [sortedByAlignDesc, List.pairwise_cons] at h
    obtain ⟨hy, hys⟩ := h
    rw [stableInsert]
    split
    · rename_i hc
      by_cases hxv : x.alignment = v
      · have hflt : (y :: ys).filter (fun L => L.alignment == v) = [] := by
          apply filter_none_of_lt
          intro z hz
          rcases List.mem_cons.mp hz with hz | hz
          · subst hz
            omega
          · have := hy z hz
            omega
        rw [hflt]
        simp [List.filter_cons, hxv, hflt]
      · simp [List.filter_cons, hxv]
    · rename_i hc
      by_cases hyv : (y.alignment == v) = true
      · simp [List.filter_cons, hyv, ih hys]
      · simp [List.filter_cons, hyv, ih hys]

theorem foldl_stableInsert_perm :
    ∀ (l S : List Layout),
      List.Perm (l.foldl (fun acc x => stableInsert x acc) S) (S ++ l) := by
  intro l
  induction l with
  | nil => intro S; simp
  | cons x l' ih =>
    intro S
    rw [List.foldl_cons]
    refine (ih (stableInsert x S)).trans ?_
    refine ((stableInsert_perm x S).append_right l').trans ?_
    exact List.perm_middle.symm

theorem stableDescSort_perm (l : List Layout) :
    List.Perm (stableDescSort l) l := by
  have := foldl_stableInsert_perm l []
  simpa [stableDescSort] using this

theorem foldl_stableInsert_sorted :
    ∀ (l S : List Layout), sortedByAlignDesc S →
      sortedByAlignDesc (l.foldl (fun acc x => stableInsert x acc) S) := by
  intro l
  induction l with
  | nil => intro S h; exact h
  | cons x l' ih =>
    intro S h
    exact ih _ (stableInsert_sorted h)

theorem stableDescSort_sorted (l : List Layout) :
    sortedByAlignDesc (stableDescSort l) :=
  foldl_stableInsert_sorted l [] (by simp [sortedByAlignDesc])

theorem foldl_stableInsert_filter (v : Int) :
    ∀ (l S : List Layout), sortedByAlignDesc S →
      (l.foldl (fun acc x => stableInsert x acc) S).filter
          (fun L => L.alignment == v) =
        S.filter (fun L => L.alignment == v) ++
          l.filter (fun L => L.alignment == v) := by
  intro l
  induction l with
  | nil => intro S h; simp
  | cons x l' ih =>
    intro S h
    rw [List.foldl_cons, ih _ (stableInsert_sorted h), stableInsert_filter x v h]
    by_cases hpx : (x.alignment == v) = true
    · simp [List.filter_cons, hpx]
    · simp [List.filter_cons, hpx]

theorem stableDescSort_filter (v : Int) (l : List Layout) :
    (stableDescSort l).filter (fun L => L.alignment == v) =
      l.filter (fun L => L.alignment == v) := by
  have := foldl_stableInsert_filter v l [] (by simp [sortedByAlignDesc])
  simpa [stableDescSort] using this

theorem aget_append_len {α : Type} [Inhabited α] (Q R : List α) (q : α) :
    aget (Q ++ q :: R) Q.length = q := by
  rw [aget, List.getD_append_right _ _ _ _ le_rfl]
  simp

theorem aget_append_len1 {α : Type} [Inhabited α] (Q R : List α) (q x : α) :
    aget (Q ++ q :: x :: R) (Q.length + 1) = x := by
  rw [aget, List.getD_append_right _ _ _ _ (by omega)]
  have h1 : Q.length + 1 - Q.length = 1 := by omega
  rw [h1]
  rfl

theorem set_append_right {α : Type} (s t : List α) (x : α) (i : Nat)
    (hi : s.length ≤ i) : (s ++ t).set i x = s ++ t.set (i - s.length) x := by
  rw [List.set_append, if_neg (by omega)]

theorem lswap_adj {α : Type} [Inhabited α] (Q R : List α) (q x : α) :
    lswap (Q ++ q :: x :: R) (Q.length + 1) Q.length = Q ++ x :: q :: R := by
  have hb : Q.length + 1 < (Q ++ q :: x :: R).length ∧
      Q.length < (Q ++ q :: x :: R).length := by
    simp only [List.length_append, List.length_cons]
    omega
  have h2 : Q.length + 1 - Q.length = 1 := by omega
  have h3 : Q.length - Q.length = 0 := by omega
  rw [lswap, if_pos hb, aget_append_len1 Q R q x, aget_append_len Q (x :: R) q,
    set_append_right _ _ _ _ (by omega), h2,
    show (q :: x :: R).set 1 q = q :: q :: R from rfl,
    set_append_right _ _ _ _ (by omega), h3,
    show (q :: q :: R).set 0 x = x :: q :: R from rfl]

theorem insInner_stable :
    ∀ (P : List Layout) (x : Layout) (R : List Layout), sortedByAlignDesc P →
      insInner layCmp (P ++ x :: R) 0 P.length = stableInsert x P ++ R := by
  intro P
  induction P using List.reverseRecOn with
  | nil =>
    intro x R _
    simp only [List.length_nil, List.nil_append]
    rw [insInner]
    rfl
  | append_singleton Q q ih =>
    intro x R hsorted
    have hQsorted : sortedByAlignDesc Q :=
      List.Pairwise.sublist (List.sublist_append_left Q [q]) hsorted
    have hlen : (Q ++ [q]).length = Q.length + 1 := by simp
    have hdata : (Q ++ [q]) ++ x :: R = Q ++ q :: x :: R := by simp
    rw [hlen, hdata, insInner, aget_append_len1 Q R q x,
      aget_append_len Q (x :: R) q]
    by_cases hcmp : layCmp x q < 0
    · rw [if_pos ⟨Nat.succ_pos _, hcmp⟩, lswap_adj Q R q x,
        ih x (q :: R) hQsorted]
      have hlt : q.alignment < x.alignment := by
        rw [layCmp] at hcmp
        omega
      rw [stableInsert_append_last hlt Q]
      simp
    · rw [if_neg (fun hh => hcmp hh.2)]
      have hge : ¬ q.alignment < x.alignment := by
        rw [layCmp] at hcmp
        omega
      have hall : ∀ y ∈ Q ++ [q], ¬ y.alignment < x.alignment := by
        intro y hy
        rcases List.mem_append.mp hy with hy | hy
        · have hqy := (List.pairwise_append.mp hsorted).2.2 y hy q
            (List.mem_singleton_self q)
          omega
        · rw [List.mem_singleton.mp hy]
          exact hge
      rw [stableInsert_all_ge hall]
      simp

theorem insOuter_stable :
    ∀ (T : List Layout) (fuel : Nat) (S : List Layout), T.length ≤ fuel →
      sortedByAlignDesc S →
      insOuter layCmp fuel (S ++ T) 0 (S.length + T.length) S.length =
        T.foldl (fun acc x => stableInsert x acc) S := by
  intro T
  induction T with
  | nil =>
    intro fuel S hf hs
    cases fuel with
    | zero => simp [insOuter]
    | succ f =>
      rw [insOuter, if_neg (by simp)]
      simp
  | cons x T' ih =>
    intro fuel S hf hs
    cases fuel with
    | zero => simp at hf
    | succ f =>
      simp only [List.length_cons] at hf ⊢
      rw [insOuter, if_pos (by omega), insInner_stable S x T' hs]
      have hlen : (stableInsert x S).length = S.length + 1 := by
        have := (stableInsert_perm x S).length_eq
        simpa using this
      have harith : S.length + (T'.length + 1) = (stableInsert x S).length
          + T'.length := by
        omega
      rw [harith, show S.length + 1 = (stableInsert x S).length from hlen.symm,
        List.foldl_cons]
      exact ih f (stableInsert x S) (by omega) (stableInsert_sorted hs)

theorem insertionSort_eq_stableDescSort (l : List Layout) :
    insertionSortCmpFunc layCmp l 0 l.length = stableDescSort l := by
  cases l with
  | nil =>
    rw [insertionSortCmpFunc, insOuter, if_neg (by simp)]
    rfl
  | cons x rest =>
    rw [insertionSortCmpFunc]
    have h0 : (x :: rest : List Layout) = [x] ++ rest := rfl
    rw [h0]
    have h1 : ([x] ++ rest : List Layout).length = ([x] : List Layout).length
        + rest.length := by
      simp only [List.length_append]
    have h2 : (0 : Nat) + 1 = ([x] : List Layout).length := by simp
    rw [h1, h2,
      insOuter_stable rest (([x] : List Layout).length + rest.length + 1) [x]
        (by simp; omega) (by simp [sortedByAlignDesc])]
    rfl

theorem goSortFunc_small {α : Type} [Inhabited α] (cmp : α → α → Int)
    (l : List α) (h : l.length ≤ 12) :
    goSortFunc cmp l = insertionSortCmpFunc cmp l 0 l.length := by
  rw [goSortFunc]
  show pdqsortCmpFunc cmp (8 * (l.length + 2)) l 0 l.length
    (goBitsLen l.length) true true = insertionSortCmpFunc cmp l 0 l.length
  have h8 : 8 * (l.length + 2) = (8 * l.length + 15) + 1 := by ring
  rw [h8, pdqsortCmpFunc]
  lift_lets
  extract_lets d0 lim2 pj d1 pivot hint pres d2 pe pr d3 mid wasP lLen rLen
    wasB d4 d5
  rw [if_pos (by omega)]

/-- C6 (amended).  `Optimize` sorts with Go's `slices.SortFunc`
(pattern-defeating quicksort), which is *not* stable in general; but a
layout of at most 12 entries takes the insertion-sort path, which equals
the spec's stable descending sort by alignment: the result is a
permutation, non-increasing in alignment, and entries of equal alignment
keep their relative order (the filter at every alignment value is
unchanged). -/
theorem c6_sort_stability {l : List Layout} (h : l.length ≤ 12) :
    goSortFunc layCmp l = stableDescSort l ∧
    List.Perm (goSortFunc layCmp l) l ∧
    sortedByAlignDesc (goSortFunc layCmp l) ∧
    ∀ v : Int, (goSortFunc layCmp l).filter (fun L => L.alignment == v) =
      l.filter (fun L => L.alignment == v) := by
  have heq : goSortFunc layCmp l = stableDescSort l := by
    rw [goSortFunc_small layCmp l h, insertionSort_eq_stableDescSort]
  refine ⟨heq, ?_, ?_, ?_⟩
  · rw [heq]
    exact stableDescSort_perm l
  · rw [heq]
    exact stableDescSort_sorted l
  · intro v
    rw [heq]
    exact stableDescSort_filter v l

/-- Witness for C6 at the three-entry layout of `struct s3`
(alignments `4, 1, 4`): the sort used by `Optimize` agrees with the
spec's stable descending sort, permutes, sorts, and preserves every
equal-alignment group's order. -/
theorem c6_witness :
    exLayS3.length ≤ 12 ∧
    (goSortFunc layCmp exLayS3 = stableDescSort exLayS3 ∧
      List.Perm (goSortFunc layCmp exLayS3) exLayS3 ∧
      sortedByAlignDesc (goSortFunc layCmp exLayS3) ∧
      ∀ v : Int, (goSortFunc layCmp exLayS3).filter (fun L => L.alignment == v) =
        exLayS3.filter (fun L => L.alignment == v)) :=
  ⟨by decide, c6_sort_stability (by decide)⟩

/-! ## Optimize: permutation and size (C5) -/

theorem dvd_tmod {a b M : Int} (h1 : a ∣ b) (h2 : a ∣ M) : a ∣ b.tmod M := by
  have h3 := Int.tdiv_add_tmod b M
  have h4 : b.tmod M = b - M * b.tdiv M := by linarith
  rw [h4]
  exact dvd_sub h1 (Dvd.dvd.mul_right h2 _)

theorem roundUp_dvd {M x : Int} (hM : 0 < M) (hx : 0 ≤ x) :
    M ∣ x + (M - x.tmod M).tmod M ∧ x ≤ x + (M - x.tmod M).tmod M := by
  have h0 : 0 ≤ x.tmod M := Int.tmod_nonneg _ hx
  have h1 : x.tmod M < M := Int.tmod_lt_of_pos _ hM
  by_cases hz : x.tmod M = 0
  · rw [hz, sub_zero, Int.tmod_self, add_zero]
    exact ⟨Int.dvd_of_tmod_eq_zero hz, le_rfl⟩
  · have h2 : (M - x.tmod M).tmod M = M - x.tmod M :=
      Int.tmod_eq_of_lt (by omega) (by omega)
    rw [h2]
    constructor
    · have h3 := Int.tdiv_add_tmod x M
      refine ⟨x.tdiv M + 1, ?_⟩
      rw [mul_add, mul_one]
      linarith
    · omega

theorem roundUp_le {M x X : Int} (hM : 0 < M) (hx : 0 ≤ x)
    (hdvd : M ∣ X) (hle : x ≤ X) :
    x + (M - x.tmod M).tmod M ≤ X := by
  obtain ⟨hre, -⟩ := roundUp_dvd hM hx
  have h0 : 0 ≤ x.tmod M := Int.tmod_nonneg _ hx
  have h1 : x.tmod M < M := Int.tmod_lt_of_pos _ hM
  have hpadlt : (M - x.tmod M).tmod M < M := Int.tmod_lt_of_pos _ hM
  have hpadnn : 0 ≤ (M - x.tmod M).tmod M := Int.tmod_nonneg _ (by omega)
  by_contra hcon
  push_neg at hcon
  have hd : M ∣ (x + (M - x.tmod M).tmod M - X) := dvd_sub hre hdvd
  have hpos : 0 < x + (M - x.tmod M).tmod M - X := by omega
  have hge : M ≤ x + (M - x.tmod M).tmod M - X := Int.le_of_dvd hpos hd
  omega

theorem specTot_ge {M : Int} (hM : 0 < M) :
    ∀ (ms : List AggregateMeta) (t : Int), 0 ≤ t →
      (∀ m ∈ ms, 0 ≤ m.Size) →
      t + (ms.map (fun m => m.Size)).sum ≤ specTot M ms t := by
  intro ms
  induction ms with
  | nil => intro t ht _; simp [specTot]
  | cons c rest ih =>
    intro t ht hwf
    have hc := hwf c (List.mem_cons_self c rest)
    rw [specTot]
    have hpad : 0 ≤ specPad M (t + c.Size) rest := by
      rw [specPad]
      have h1 : (t + c.Size).tmod M < M := Int.tmod_lt_of_pos _ hM
      exact Int.tmod_nonneg _ (by omega)
    have hrec := ih (t + c.Size + specPad M (t + c.Size) rest) (by omega)
      (fun m hm => hwf m (List.mem_cons_of_mem c hm))
    simp only [List.map_cons, List.sum_cons] at *
    omega

theorem specTot_dvd {M : Int} (hM : 0 < M) :
    ∀ (ms : List AggregateMeta) (t : Int), 0 ≤ t → ms ≠ [] →
      (∀ m ∈ ms, 0 ≤ m.Size) → M ∣ specTot M ms t := by
  intro ms
  induction ms with
  | nil => intro t _ hne _; exact absurd rfl hne
  | cons c rest ih =>
    intro t ht _ hwf
    have hc := hwf c (List.mem_cons_self c rest)
    rw [specTot]
    cases rest with
    | nil =>
      rw [show specTot M ([] : List AggregateMeta)
          (t + c.Size + specPad M (t + c.Size) []) =
          t + c.Size + specPad M (t + c.Size) [] from rfl,
        specPad, show specNext M ([] : List AggregateMeta) = M from rfl]
      exact (roundUp_dvd hM (by omega)).1
    | cons d rest' =>
      apply ih
      · have hpadnn : 0 ≤ specPad M (t + c.Size) (d :: rest') := by
          rw [specPad]
          have h1 : (t + c.Size).tmod M < M := Int.tmod_lt_of_pos _ hM
          exact Int.tmod_nonneg _ (by omega)
        omega
      · exact List.cons_ne_nil d rest'
      · exact fun m hm => hwf m (List.mem_cons_of_mem c hm)

theorem specTot_sorted {M : Int} (hM : 0 < M) :
    ∀ (ms : List AggregateMeta) (t : Int), ms ≠ [] → 0 ≤ t →
      (∀ m ∈ ms, 0 ≤ m.Size ∧ 0 < m.Alignment ∧ m.Alignment ∣ m.Size ∧
        m.Alignment ∣ M) →
      List.Pairwise (fun x y => y.Alignment ∣ x.Alignment) ms →
      (∀ m ∈ ms, m.Alignment ∣ t) →
      specTot M ms t = (t + (ms.map (fun m => m.Size)).sum) +
        (M - (t + (ms.map (fun m => m.Size)).sum).tmod M).tmod M := by
  intro ms
  induction ms with
  | nil => intro t hne _ _ _ _; exact absurd rfl hne
  | cons c rest ih =>
    intro t _ ht hwf hpair hdvdt
    obtain ⟨hc1, hc2, hc3, hc4⟩ := hwf c (List.mem_cons_self c rest)
    rw [List.pairwise_cons] at hpair
    obtain ⟨hcd, hpair'⟩ := hpair
    rw [specTot]
    cases rest with
    | nil =>
      rw [show specTot M ([] : List AggregateMeta)
          (t + c.Size + specPad M (t + c.Size) []) =
          t + c.Size + specPad M (t + c.Size) [] from rfl,
        specPad, show specNext M ([] : List AggregateMeta) = M from rfl]
      simp only [List.map_cons, List.map_nil, List.sum_cons, List.sum_nil,
        add_zero]
    | cons d rest' =>
      have hd := hwf d (List.mem_cons_of_mem c (List.mem_cons_self d rest'))
      have hdvd_ts : d.Alignment ∣ t + c.Size := by
        refine dvd_add (hdvdt d (List.mem_cons_of_mem c
          (List.mem_cons_self d rest'))) ?_
        exact dvd_trans (hcd d (List.mem_cons_self d rest')) hc3
      have hpad0 : specPad M (t + c.Size) (d :: rest') = 0 := by
        rw [specPad, show specNext M (d :: rest') = d.Alignment from rfl]
        exact Int.tmod_eq_zero_of_dvd
          (dvd_sub hd.2.2.2 (dvd_tmod hdvd_ts hd.2.2.2))
      rw [hpad0, add_zero]
      have hrec := ih (t + c.Size) (List.cons_ne_nil d rest') (by omega)
        (fun m hm => hwf m (List.mem_cons_of_mem c hm)) hpair'
        (fun m hm => dvd_add (hdvdt m (List.mem_cons_of_mem c hm))
          (dvd_trans (dvd_trans (hcd m hm) hc3) (dvd_refl c.Size)))
      rw [hrec]
      simp only [List.map_cons, List.sum_cons]
      have e : t + (c.Size + (d.Size + (List.map (fun m => m.Size) rest').sum)) =
          t + c.Size + (d.Size + (List.map (fun m => m.Size) rest').sum) := by
        ring
      rw [e]

theorem sortedTot_le {M : Int} (hM : 0 < M) {ms ms' : List AggregateMeta}
    (hperm : List.Perm (ms'.map (fun m => (m.Alignment, m.Size)))
      (ms.map (fun m => (m.Alignment, m.Size))))
    (hwf : ∀ m ∈ ms, 0 ≤ m.Size ∧ 0 < m.Alignment ∧ m.Alignment ∣ m.Size ∧
      m.Alignment ∣ M)
    (hpair : List.Pairwise (fun x y => y.Alignment ∣ x.Alignment) ms') :
    specTot M ms' 0 ≤ specTot M ms 0 := by
  have hwf' : ∀ m ∈ ms', 0 ≤ m.Size ∧ 0 < m.Alignment ∧ m.Alignment ∣ m.Size ∧
      m.Alignment ∣ M := by
    intro m hm
    have hmem : (m.Alignment, m.Size) ∈ ms.map (fun m => (m.Alignment, m.Size)) :=
      hperm.mem_iff.mp (List.mem_map_of_mem _ hm)
    obtain ⟨m0, hm0, heq⟩ := List.mem_map.mp hmem
    have ha : m0.Alignment = m.Alignment := congrArg Prod.fst heq
    have hs : m0.Size = m.Size := congrArg Prod.snd heq
    rw [← ha, ← hs]
    exact hwf m0 hm0
  have hsum : (ms'.map (fun m => m.Size)).sum = (ms.map (fun m => m.Size)).sum := by
    have h2 := (hperm.map Prod.snd).sum_eq
    simpa only [List.map_map] using h2
  by_cases hms : ms = []
  · have hms' : ms' = [] := by
      rw [hms] at hperm
      have := hperm.eq_nil
      simpa using this
    rw [hms, hms']
  · have hne' : ms' ≠ [] := by
      intro h0
      rw [h0] at hperm
      have := hperm.symm.eq_nil
      exact hms (by simpa using this)
    have hnn : ∀ x ∈ ms.map (fun m => m.Size), 0 ≤ x := by
      intro x hx
      obtain ⟨m0, hm0, hx0⟩ := List.mem_map.mp hx
      rw [← hx0]
      exact (hwf m0 hm0).1
    have hsum_nn : 0 ≤ (ms.map (fun m => m.Size)).sum := List.sum_nonneg hnn
    have h1 := specTot_sorted hM ms' 0 hne' le_rfl hwf' hpair
      (fun m _ => dvd_zero m.Alignment)
    have h2 := specTot_dvd hM ms 0 le_rfl hms (fun m hm => (hwf m hm).1)
    have h3 := specTot_ge hM ms 0 le_rfl (fun m hm => (hwf m hm).1)
    rw [h1, zero_add, hsum]
    have h4 := @roundUp_le M ((ms.map (fun m => m.Size)).sum)
      (specTot M ms 0) hM hsum_nn h2 (by omega)
    exact h4

/-- Inversion of a successful struct `Optimize`. -/
theorem Optimize_struct_ok {cat : Cat} {fuel : Nat} {ctx : Ctx} {name : String}
    {meta : AggregateMeta} {ctx' : Ctx} {meta' : AggregateMeta} {id : Nat}
    {agg : Aggregate}
    (hid : lookupStr ctx.names name = some id)
    (hagg : ctx.store.get? id = some agg)
    (hkind : agg.Kind = .structKind)
    (hok : Optimize cat fuel ctx name meta = .ok (ctx', meta')) :
    ¬ (goSortFunc layCmp (meta.Layout.getD [])).length < agg.Fields.length ∧
    ctx' = optimizedStore ctx id agg (goSortFunc layCmp (meta.Layout.getD [])) := by
  rw [Optimize] at hok
  simp only [hid, hagg] at hok
  rw [if_neg (by simp [hkind])] at hok
  split at hok
  · exact absurd hok (by simp)
  · rename_i hlen
    split at hok
    · exact absurd hok (by simp)
    · rename_i m hrm
      refine ⟨hlen, ?_⟩
      simp only [Except.ok.injEq, Prod.mk.injEq] at hok
      exact hok.1.symm

/-- C5 (amended).  Two facts.  (1) Whenever `Optimize` succeeds on a
struct whose stored metadata is its own resolution (its layout lists
exactly the aggregate's fields), the field sequence written back is a
permutation of the original fields.  (2) The re-resolved size never
exceeds the original one *provided* the written-back order is
non-increasing in alignment with each later alignment dividing every
earlier one and every field is well-formed (nonnegative size, positive
alignment dividing both its size and the maximum alignment) — the
power-of-two situation of every built-in preset.  Without that proviso
the size can strictly grow (see the counterexample, reachable through
the `-long 6,6` CLI flag). -/
theorem c5_optimize_size_perm :
    (∀ (cat : Cat) (fuel : Nat) (ctx : Ctx) (name : String)
       (meta : AggregateMeta) (ctx' : Ctx) (meta' : AggregateMeta)
       (id : Nat) (agg : Aggregate) (ls : List Layout),
      lookupStr ctx.names name = some id →
      ctx.store.get? id = some agg →
      agg.Kind = .structKind →
      Optimize cat fuel ctx name meta = .ok (ctx', meta') →
      meta.Layout = some ls →
      layFields ls = agg.Fields →
      ls.length = agg.Fields.length →
      List.Perm ((ctx'.store.getD id default).Fields) agg.Fields) ∧
    (∀ (M : Int) (fields fields' : List Field) (ms ms' : List AggregateMeta)
       (ls ls' : List Layout) (fin fin' : Int),
      0 < M →
      secondPass M (fields.zip ms) 0 = .ok (ls, fin) →
      secondPass M (fields'.zip ms') 0 = .ok (ls', fin') →
      ms.length ≤ fields.length →
      ms'.length ≤ fields'.length →
      List.Perm (ms'.map (fun m => (m.Alignment, m.Size)))
        (ms.map (fun m => (m.Alignment, m.Size))) →
      (∀ m ∈ ms, 0 ≤ m.Size ∧ 0 < m.Alignment ∧ m.Alignment ∣ m.Size ∧
        m.Alignment ∣ M) →
      List.Pairwise (fun x y => y.Alignment ∣ x.Alignment) ms' →
      fin' ≤ fin) := by
  constructor
  · intro cat fuel ctx name meta ctx' meta' id agg ls hid hagg hkind hok hlay
      hlf hlen
    obtain ⟨hnlt, hctx⟩ := Optimize_struct_ok hid hagg hkind hok
    simp only [hlay, Option.getD_some] at hnlt hctx
    have hperm := goSortFunc_perm layCmp ls
    have hlen2 : (goSortFunc layCmp ls).length = agg.Fields.length := by
      rw [hperm.length_eq, hlen]
    have htake : (goSortFunc layCmp ls).take agg.Fields.length
        = goSortFunc layCmp ls := by
      rw [← hlen2, List.take_length]
    have hid_lt : id < ctx.store.length := by
      obtain ⟨h, -⟩ := List.get?_eq_some.mp hagg
      exact h
    rw [hctx, optimizedStore]
    dsimp only
    rw [getD_set_self _ _ _ _ hid_lt]
    show List.Perm (((goSortFunc layCmp ls).take agg.Fields.length).map
      (fun L => L.field)) agg.Fields
    rw [htake, ← hlf, layFields]
    exact hperm.map (fun L => L.field)
  · intro M fields fields' ms ms' ls ls' fin fin' hM hsp hsp' hlen hlen' hperm
      hwf hpair
    obtain ⟨-, -, -, -, ht⟩ := secondPass_spec hsp
    obtain ⟨-, -, -, -, ht'⟩ := secondPass_spec hsp'
    rw [List.map_snd_zip fields ms hlen] at ht
    rw [List.map_snd_zip fields' ms' hlen'] at ht'
    rw [ht, ht']
    exact sortedTot_le hM hperm hwf hpair

/-- Counterexample to C5 as stated: under the catalog reachable through
the `-long 6,6` CLI flag (`long` gets size 6 and alignment 6),
`struct x { int b; char c; long a; }` resolves to size 12, but
`Optimize` — which sorts `long` first — re-resolves it to size 18: the
optimized size is strictly *larger*. -/
theorem c5_counterexample :
    ∃ meta ctx' meta', ResolveMeta exCat66 exCtxX 2 "struct x" = .ok meta ∧
      meta.Size = 12 ∧
      Optimize exCat66 2 exCtxX "struct x" meta = .ok (ctx', meta') ∧
      meta'.Size = 18 ∧
      ¬ meta'.Size ≤ meta.Size := by
  refine ⟨_, _, _, rfl, rfl, rfl, rfl, by decide⟩

/-- Witness for C5 at `struct w { int8_t a; int64_t b; }`: optimization
permutes the two fields (part 1 of the theorem applied to the concrete
`Optimize` run), and the size comparison (part 2 applied to the two
concrete second passes, original order vs sorted order) gives
`16 ≤ 16`. -/
theorem c5_witness :
    (ResolveMeta defaultCat exCtxW 2 "struct w" = .ok exMetaW ∧
      Optimize defaultCat 2 exCtxW "struct w" exMetaW = .ok (exCtxW2, exMetaW2) ∧
      List.Perm ((exCtxW2.store.getD 0 default).Fields) exAggW.Fields) ∧
    (∃ ls fin ls' fin',
      secondPass 8 (exAggW.Fields.zip
        ([⟨1, 1, none⟩, ⟨8, 8, none⟩] : List AggregateMeta)) 0 = .ok (ls, fin) ∧
      secondPass 8 (([.basic [] "int64_t" "b", .basic [] "int8_t" "a"] :
        List Field).zip
        ([⟨8, 8, none⟩, ⟨1, 1, none⟩] : List AggregateMeta)) 0 = .ok (ls', fin') ∧
      fin' ≤ fin ∧ fin = 16 ∧ fin' = 16) := by
  constructor
  · refine ⟨rfl, rfl, ?_⟩
    exact c5_optimize_size_perm.1 defaultCat 2 exCtxW "struct w" exMetaW exCtxW2
      exMetaW2 0 exAggW
      [⟨.basic [] "int8_t" "a", 1, 1, 7, none⟩,
       ⟨.basic [] "int64_t" "b", 8, 8, 0, none⟩]
      rfl rfl rfl rfl rfl rfl rfl
  · refine ⟨_, _, _, _, rfl, rfl, ?_, rfl, rfl⟩
    exact c5_optimize_size_perm.2 8 exAggW.Fields
      [.basic [] "int64_t" "b", .basic [] "int8_t" "a"]
      [⟨1, 1, none⟩, ⟨8, 8, none⟩] [⟨8, 8, none⟩, ⟨1, 1, none⟩]
      _ _ _ _ (by decide) rfl rfl (by decide) (by decide) (by decide)
      (by decide) (by decide)

set_option maxRecDepth 100000 in
/-- Counterexample to C6 as stated: optimizing the 13-field
`struct big` (four `long`s, four `char`s, four `int`s, one `short`)
takes pdqsort's non-insertion path and writes back the fields in an
order that is descending in alignment but *not* stable: among the
equal-alignment `int` fields, `f9` now precedes `f8`, and the
equal-alignment `char` field `f4` has moved behind `f5`, `f6`, `f7`. -/
theorem c6_counterexample :
    ∃ meta ctx' meta',
      ResolveMeta defaultCat exCtxBig 2 "struct big" = .ok meta ∧
      Optimize defaultCat 2 exCtxBig "struct big" meta = .ok (ctx', meta') ∧
      exAggBig.Fields =
        [.basic [] "long" "f0", .basic [] "long" "f1", .basic [] "long" "f2",
         .basic [] "long" "f3", .basic [] "char" "f4", .basic [] "char" "f5",
         .basic [] "char" "f6", .basic [] "char" "f7", .basic [] "int" "f8",
         .basic [] "int" "f9", .basic [] "int" "f10", .basic [] "int" "f11",
         .basic [] "short" "f12"] ∧
      (ctx'.store.getD 0 default).Fields =
        [.basic [] "long" "f0", .basic [] "long" "f1", .basic [] "long" "f2",
         .basic [] "long" "f3", .basic [] "int" "f9", .basic [] "int" "f8",
         .basic [] "int" "f10", .basic [] "int" "f11", .basic [] "short" "f12",
         .basic [] "char" "f5", .basic [] "char" "f6", .basic [] "char" "f7",
         .basic [] "char" "f4"] := by
  refine ⟨_, _, _, rfl, rfl, by decide, by decide⟩

end Stropt
